import Mathlib

/-!
A shallow embedding of the DFHA learn-compile-route core
(`PatternMiningService` sequence aligner and consensus extractor,
`WorkflowSynthesizer` compiler and structural verifier, and
`ThompsonSamplingRouter` arm statistics), together with theorems
settling the behavioural claims about these components.

Modelling conventions:
* JavaScript objects used as string-keyed dictionaries are modelled as
  association lists (`Obj α`) with first-match lookup and
  replace-in-place-or-append assignment, which reproduces JS insertion
  order and key uniqueness.
* JS numbers are modelled as `ℚ`; the `Infinity` entries of the DTW
  matrix are modelled as `⊤ : WithTop ℚ`.  Division by zero is the Lean
  convention `q / 0 = 0` where JS would produce `NaN`; every place this
  matters is noted at the definition.
* `undefined`-able numeric fields (router Beta parameters, consensus
  node frequency) are modelled as `Option` with `none` for
  `undefined`/`NaN`.
* While-loops and recursion with shared mutable `Set`s (`checkReachability`,
  `detectCycles`) are modelled with explicit fuel and threaded state; the
  fuel supplied is large enough for the loop to run to completion on the
  inputs used by theorems, and loop invariants proved below hold at every
  fuel.
-/

namespace DFHA

/-- JS object used as a dictionary: association list, unique keys by
construction (assignment replaces in place, else appends). -/
abbrev Obj (α : Type) := List (String × α)

/-- `obj[key]` — first-match lookup. -/
def getVal {α : Type} : Obj α → String → Option α
  | [], _ => none
  | (k, v) :: rest, key => if k = key then some v else getVal rest key

/-- `obj[key] = v` — replace existing key in place, else append. -/
def setVal {α : Type} : Obj α → String → α → Obj α
  | [], key, v => [(key, v)]
  | (k, w) :: rest, key, v =>
      if k = key then (key, v) :: rest else (k, w) :: setVal rest key v

/-- `Object.keys(obj)`. -/
def objKeys {α : Type} (m : Obj α) : List String := m.map Prod.fst

@[simp] theorem objKeys_nil {α : Type} : objKeys ([] : Obj α) = [] := rfl

@[simp] theorem objKeys_cons {α : Type} (k : String) (v : α) (rest : Obj α) :
    objKeys ((k, v) :: rest) = k :: objKeys rest := rfl

theorem getVal_setVal_same {α : Type} (m : Obj α) (k : String) (v : α) :
    getVal (setVal m k v) k = some v := by
  induction m with
  | nil => simp [setVal, getVal]
  | cons p rest ih =>
      obtain ⟨k', w⟩ := p
      by_cases h : k' = k
      · simp [setVal, h, getVal]
      · simp [setVal, h, getVal, ih]

theorem getVal_setVal_ne {α : Type} (m : Obj α) (k r : String) (v : α) (h : r ≠ k) :
    getVal (setVal m k v) r = getVal m r := by
  induction m with
  | nil => simp [setVal, getVal, Ne.symm h]
  | cons p rest ih =>
      obtain ⟨k', w⟩ := p
      by_cases hk : k' = k
      · subst hk
        simp [setVal, getVal, Ne.symm h]
      · simp [setVal, hk, getVal, ih]

theorem objKeys_setVal {α : Type} (m : Obj α) (k : String) (v : α) :
    objKeys (setVal m k v) = if k ∈ objKeys m then objKeys m else objKeys m ++ [k] := by
  induction m with
  | nil => simp [setVal, objKeys]
  | cons p rest ih =>
      obtain ⟨k', w⟩ := p
      by_cases hk : k' = k
      · subst hk
        simp [setVal, objKeys]
      · simp [setVal, hk, objKeys] at ih ⊢
        rw [ih]
        by_cases hmem : k ∈ List.map Prod.fst rest
        · simp [hmem, Ne.symm hk]
        · simp [hmem, Ne.symm hk]

theorem objKeys_setVal_nodup {α : Type} (m : Obj α) (k : String) (v : α)
    (h : (objKeys m).Nodup) : (objKeys (setVal m k v)).Nodup := by
  rw [objKeys_setVal]
  by_cases hmem : k ∈ objKeys m
  · simpa [hmem]
  · simpa [hmem, List.nodup_append] using h

theorem mem_objKeys_of_getVal_some {α : Type} {m : Obj α} {k : String} {v : α}
    (h : getVal m k = some v) : k ∈ objKeys m := by
  induction m with
  | nil => simp [getVal] at h
  | cons p rest ih =>
      obtain ⟨k', w⟩ := p
      by_cases hk : k' = k
      · subst hk
        exact List.mem_cons_self _ _
      · simp only [getVal, if_neg hk] at h
        exact List.mem_cons_of_mem _ (ih h)

theorem getVal_eq_none_of_not_mem {α : Type} {m : Obj α} {k : String}
    (h : k ∉ objKeys m) : getVal m k = none := by
  induction m with
  | nil => simp [getVal]
  | cons p rest ih =>
      obtain ⟨k', w⟩ := p
      rw [objKeys_cons, List.mem_cons] at h
      push_neg at h
      have hne : ¬ k' = k := fun hc => h.1 hc.symm
      simp only [getVal, if_neg hne]
      exact ih h.2

/-! ## JS values (task input/output field values) -/

/-- A JS value as stored in trace task inputs. -/
inductive JsVal : Type
  | str (s : String)
  | num (q : ℚ)
  | boolean (b : Bool)
  | null
deriving DecidableEq, Repr

/-- JS `typeof v` (`null` has typeof `"object"`). -/
def jsTypeof : JsVal → String
  | .str _ => "string"
  | .num _ => "number"
  | .boolean _ => "boolean"
  | .null => "object"

/-- JS `Set` insertion-order deduplication (`[...new Set(xs)]`). -/
def jsDedup {α : Type} [DecidableEq α] : List α → List α
  | [] => []
  | a :: as => a :: jsDedup (as.filter (fun x => x ≠ a))
termination_by l => l.length
decreasing_by
  simp only [List.length_cons]
  exact Nat.lt_succ_of_le (List.length_filter_le _ _)

/-! ## Trace data model

A `JTask` is one element of a trace's `executionSequence` (and also an
aligned-sequence element, where the gap marker `{taskName:'GAP'}` is
represented with all other fields absent).  Only the fields read by the
aligner, the consensus extractor and the synthesizer are modelled:
`taskName`, `input.schema` (its key set), `output.schema` (its key set)
and `input.values`. -/

structure JTask : Type where
  taskName : String
  inputSchema : Option (List String) := none
  outputSchema : Option (List String) := none
  inputValues : Option (Obj JsVal) := none
deriving DecidableEq, Repr

/-- The aligner's gap marker `{ taskName: 'GAP', optional: true }`
(the `optional` flag is never read downstream and is not modelled). -/
def gapTask : JTask := { taskName := "GAP" }

/-- Stand-in for a JS out-of-range array access (`seq[pos]` =
`undefined`); dereferencing it in JS would throw.  It is proved below
(`aligned_length_ge_reference`) that aligned sequences are at least as
long as the reference, so consensus extraction never actually reads it. -/
def undefinedTask : JTask := { taskName := "undefined" }

/-- An execution trace; only `executionSequence` is read by the
components under verification. -/
structure Trace : Type where
  executionSequence : List JTask
deriving DecidableEq, Repr

/-! ## Sequence aligner (`PatternMiningService.alignExecutionSequences`) -/

/-- `schemaSimilarity(schema1, schema2)`: 0 when either schema is
absent, else `|keys1 ∩ keys2| / |keys1 ∪ keys2|`.  Schemas are modelled
by their key lists (JS object keys, hence assumed duplicate-free for
well-formed inputs).  When both key sets are empty JS computes `0/0 =
NaN`; the `ℚ` convention `0/0 = 0` is used instead — no theorem below
touches that case. -/
def schemaSimilarity : Option (List String) → Option (List String) → ℚ
  | none, _ => 0
  | _, none => 0
  | some keys1, some keys2 =>
      let intersection := keys1.filter (fun k => k ∈ keys2)
      let unionSize := (jsDedup (keys1 ++ keys2)).length
      (intersection.length : ℚ) / (unionSize : ℚ)

/-- `taskSimilarity(task1, task2)`: 0 on a name match, else
`1 − (inputSimilarity + outputSimilarity) / 2`. -/
def taskSimilarity (task1 task2 : JTask) : ℚ :=
  if task1.taskName = task2.taskName then 0
  else
    let inputSimilarity := schemaSimilarity task1.inputSchema task2.inputSchema
    let outputSimilarity := schemaSimilarity task1.outputSchema task2.outputSchema
    1 - ((inputSimilarity + outputSimilarity) / 2)

/-- The DTW/edit-distance matrix of `alignTwoSequences`, expressed by the
recurrence the fill loop implements: borders (other than `dtw[0][0] = 0`)
stay at their `Infinity` initialisation, and
`dtw[i][j] = min(dtw[i-1][j] + 1, dtw[i][j-1] + 1, dtw[i-1][j-1] + cost)`
with `cost = taskSimilarity(seq1[i-1], seq2[j-1])`. -/
def dtw (seq1 seq2 : List JTask) : ℕ → ℕ → WithTop ℚ
  | 0, 0 => 0
  | _ + 1, 0 => ⊤
  | 0, _ + 1 => ⊤
  | i + 1, j + 1 =>
      let cost : WithTop ℚ :=
        ((taskSimilarity (seq1.getD i undefinedTask) (seq2.getD j undefinedTask) : ℚ) : WithTop ℚ)
      min (min (dtw seq1 seq2 i (j + 1) + 1) (dtw seq1 seq2 (i + 1) j + 1))
          (dtw seq1 seq2 i j + cost)
termination_by i j => (i, j)

/-- The backtracking loop of `alignTwoSequences`.  Mirrors the JS loop
`while (i > 0 || j > 0)`: a diagonal step re-emits `seq2[j-1]`, a
deletion step emits a gap marker, otherwise `seq2[j-1]` is emitted and
`j` decremented (`unshift` builds the list front-to-back, hence the
appends).  In the state `i ≥ 1, j = 0` with the deletion test false the
JS loop never terminates; that state is unreachable from any start
`(m, n)` with `n ≥ 1` (proved below), and the model returns `[]`. -/
def backtrack (seq1 seq2 : List JTask) (i j : ℕ) : List JTask :=
  if _hz : i = 0 ∧ j = 0 then []
  else if _hdiag : 1 ≤ i ∧ 1 ≤ j ∧
      dtw seq1 seq2 i j =
        dtw seq1 seq2 (i - 1) (j - 1) +
          ((taskSimilarity (seq1.getD (i - 1) undefinedTask)
              (seq2.getD (j - 1) undefinedTask) : ℚ) : WithTop ℚ) then
    backtrack seq1 seq2 (i - 1) (j - 1) ++ [seq2.getD (j - 1) undefinedTask]
  else if _hdel : 1 ≤ i ∧ dtw seq1 seq2 i j = dtw seq1 seq2 (i - 1) j + 1 then
    backtrack seq1 seq2 (i - 1) j ++ [gapTask]
  else if _hins : 1 ≤ j then
    backtrack seq1 seq2 i (j - 1) ++ [seq2.getD (j - 1) undefinedTask]
  else []
termination_by i + j
decreasing_by
  · omega
  · omega
  · omega

/-- Result of `alignTwoSequences`. -/
structure PairAlignment : Type where
  aligned : List JTask
  score : ℚ
deriving DecidableEq, Repr

/-- `alignTwoSequences(seq1, seq2)`: backtracked alignment plus the
normalised score `1 − dtw[m][n] / max(m, n)`.  For nonempty inputs
`dtw[m][n]` is finite (proved below); the `⊤` fallback value 0 is never
read in that case. -/
def alignTwoSequences (seq1 seq2 : List JTask) : PairAlignment :=
  let m := seq1.length
  let n := seq2.length
  { aligned := backtrack seq1 seq2 m n
    score := 1 - WithTop.untop' 0 (dtw seq1 seq2 m n) / (max m n : ℚ) }

/-- Result of `alignExecutionSequences`. -/
structure AlignedSet : Type where
  aligned : List (List JTask)
  alignmentScore : ℚ
  reference : List JTask
deriving DecidableEq, Repr

/-- `alignExecutionSequences(traces)`: the first sequence is the
reference; every other sequence is aligned to it, and the overall score
is the mean of the pairwise scores. -/
def alignExecutionSequences (traces : List Trace) : AlignedSet :=
  let sequences := traces.map Trace.executionSequence
  let reference := sequences.headD []
  let rest := sequences.tail
  let pairs := rest.map (fun s => alignTwoSequences reference s)
  let totalScore := (pairs.map PairAlignment.score).sum
  { aligned := reference :: pairs.map PairAlignment.aligned
    alignmentScore := totalScore / ((sequences.length : ℚ) - 1)
    reference := reference }

/-! ## Consensus extractor (`PatternMiningService.extractConsensusPattern`) -/

/-- `counts[name] = (counts[name] || 0) + 1`. -/
def bumpOne (acc : Obj ℕ) (name : String) : Obj ℕ :=
  setVal acc name ((getVal acc name).getD 0 + 1)

/-- The `taskCounts` tally: non-gap task-name frequencies at one aligned
position, in first-occurrence order. -/
def countTasks (col : List JTask) : Obj ℕ :=
  col.foldl (fun acc task => if task.taskName = "GAP" then acc else bumpOne acc task.taskName) []

/-- `totalNonGap`, accumulated in the same loop as `taskCounts`. -/
def totalNonGap (col : List JTask) : ℕ :=
  (col.filter (fun task => task.taskName ≠ "GAP")).length

/-- The `maxCount` scan over `Object.entries(taskCounts)`: strict `>`
keeps the first maximum; the initial state is `(null, 0)`. -/
def maxConsensus (counts : Obj ℕ) : Option String × ℕ :=
  counts.foldl (fun best entry => if entry.2 > best.2 then (some entry.1, entry.2) else best)
    (none, 0)

/-- A consensus pattern node.  The extractor produces two shapes of JS
object; both are modelled by one structure whose fields are `Option`
(or defaulted) where the other shape leaves them `undefined`:
a Task node carries `frequency`, `required` and the representative
schemas, a Branch node carries `taskName = "BRANCH"`, `options` and
`frequencies`. -/
structure CNode : Type where
  position : ℕ
  taskName : String
  frequency : Option ℚ := none
  required : Bool := false
  inputSchema : Option (List String) := none
  outputSchema : Option (List String) := none
  options : List String := []
  frequencies : Obj ℕ := []
deriving DecidableEq, Repr

/-- The per-position body of the `extractConsensusPattern` loop.
`numSeqs` is `sequences.length`; `col` is `tasksAtPosition`.  If the
most common non-gap task reaches the consensus threshold a Task node is
emitted (`frequency = maxCount / sequences.length`, `required` iff that
share is ≥ 0.9); otherwise a Branch node listing all observed options.
JS computes `0/0 = NaN ≥ θ = false` when every entry is a gap; here
`maxConsensus` returns `none` in that case so the same Branch arm is
taken.  The representative-task lookup cannot fail (the consensus name
has a positive count); its fallback arm keeps the model total. -/
def consensusAt (consensusThreshold : ℚ) (numSeqs : ℕ) (col : List JTask)
    (position : ℕ) : CNode :=
  let taskCounts := countTasks col
  let nonGap := totalNonGap col
  let best := maxConsensus taskCounts
  match best.1 with
  | some consensusTask =>
      if (best.2 : ℚ) / (nonGap : ℚ) ≥ consensusThreshold then
        match col.find? (fun t => t.taskName = consensusTask) with
        | some representativeTask =>
            { position := position
              taskName := consensusTask
              frequency := some ((best.2 : ℚ) / (numSeqs : ℚ))
              required := decide ((best.2 : ℚ) / (numSeqs : ℚ) ≥ 9/10)
              inputSchema := representativeTask.inputSchema
              outputSchema := representativeTask.outputSchema }
        | none =>
            { position := position
              taskName := consensusTask
              frequency := some ((best.2 : ℚ) / (numSeqs : ℚ))
              required := decide ((best.2 : ℚ) / (numSeqs : ℚ) ≥ 9/10) }
      else
        { position := position, taskName := "BRANCH"
          options := objKeys taskCounts, frequencies := taskCounts }
  | none =>
      { position := position, taskName := "BRANCH"
        options := objKeys taskCounts, frequencies := taskCounts }

/-- `extractConsensusPattern`: one node per position of the reference
(`sequenceLength = sequences[0].length`), reading each sequence's entry
at that position. -/
def extractConsensusPattern (consensusThreshold : ℚ)
    (aligned : List (List JTask)) : List CNode :=
  let sequenceLength := (aligned.headD []).length
  (List.range sequenceLength).map (fun position =>
    consensusAt consensusThreshold aligned.length
      (aligned.map (fun seq => seq.getD position undefinedTask)) position)

/-! ## Mined pattern data model -/

/-- A guard condition value, as consumed by `formatCondition`: either a
plain string, an object with `field`/`operator`/`value`, or anything
else (formatted as `'true'`). -/
inductive Cond : Type
  | s (x : String)
  | fov (field op value : String)
  | other
deriving DecidableEq, Repr

/-- A `guardConditions` entry: a position plus a map branch-name →
condition. -/
structure Guard : Type where
  position : ℕ
  conditions : Obj Cond
deriving DecidableEq, Repr

/-- A `variableRegions` entry (only `position` and `field` are read by
the synthesizer). -/
structure VarRegion : Type where
  position : ℕ
  field : String
deriving DecidableEq, Repr

/-- A mined pattern, restricted to the fields the synthesizer reads
(`patternId`, `normalizedQuery`, data-flow and performance profiles are
only copied into metadata and are not modelled). -/
structure Pattern : Type where
  consensusSequence : List CNode
  variableRegions : List VarRegion := []
  guardConditions : List Guard := []
  confidence : ℚ
deriving DecidableEq, Repr

/-! ## Workflow synthesizer (`WorkflowSynthesizer`) -/

/-- One entry of a choice state's `choices` array. -/
structure WChoice : Type where
  condition : String
  goto : String
deriving DecidableEq, Repr

/-- A workflow state.  The JS objects have per-kind fields; absent
fields are modelled by defaults (`goto` is a string or an array in JS,
modelled uniformly as a list: absent = `[]`, single = one element). -/
structure WState : Type where
  type : String
  validateContract : Bool := false
  goto : List String := []
  choices : List WChoice := []
  defaultGoto : Option String := none
  actionIdentifier : Option String := none
  inputMapping : Obj String := []
  outputExpr : Option String := none
  required : Option Bool := none
  errorHandler : Option String := none
deriving DecidableEq, Repr

/-- JS `x > c` where `x` may be `undefined` (`undefined > c` is false). -/
def jsGt (x : Option ℚ) (c : ℚ) : Bool :=
  match x with
  | some q => decide (q > c)
  | none => false

/-- JS `x < c` where `x` may be `undefined` (`undefined < c` is false). -/
def jsLt (x : Option ℚ) (c : ℚ) : Bool :=
  match x with
  | some q => decide (q < c)
  | none => false

/-- `mapToAction(taskName)`. -/
def mapToAction (taskName : String) : String :=
  if taskName = "FetchData" then "lambda:fetch_data"
  else if taskName = "Analyze" then "lambda:analyze"
  else if taskName = "Transform" then "lambda:transform"
  else if taskName = "Validate" then "script:validate"
  else "lambda:" ++ taskName.toLower

/-- `generateInputMapping(pattern, index)`: each schema field maps to
`${input.field}` when a variable region matches this position and
field, else to `${context.field}`. -/
def generateInputMapping (p : Pattern) (index : ℕ) : Obj String :=
  match (p.consensusSequence.get? index).bind CNode.inputSchema with
  | none => []
  | some fields =>
      fields.map (fun field =>
        if p.variableRegions.any (fun v => v.position = index ∧ v.field = field) then
          (field, "$\x7binput." ++ field ++ "\x7d")
        else
          (field, "$\x7bcontext." ++ field ++ "\x7d"))

/-- `formatCondition(condition)`. -/
def formatCondition : Cond → String
  | .s x => x
  | .fov field op value => "$\x7b" ++ field ++ "\x7d " ++ op ++ " \"" ++ value ++ "\""
  | .other => "true"

/-- `generateChoices(pattern, index)`: the guard entry at this position
(if any) yields one choice per branch, whose `goto` is the branch name. -/
def generateChoices (p : Pattern) (index : ℕ) : List WChoice :=
  match p.guardConditions.find? (fun g => g.position = index) with
  | none => []
  | some guards =>
      guards.conditions.map (fun bc =>
        { condition := formatCondition bc.2, goto := bc.1 })

/-- The key/state pair generated for one consensus node: a `choice_i`
choice state for a `BRANCH` node, else a task state keyed by the task
name (`required` iff frequency > 0.9, `errorHandler` `'skip'` iff
frequency < 0.9 else `'fail'`, `goto` the next task name, the next
choice key, or `'end'`). -/
def nodeStateEntry (p : Pattern) (index : ℕ) (node : CNode)
    (nextNode : Option CNode) : String × WState :=
  if node.taskName = "BRANCH" then
    ("choice_" ++ toString index,
      { type := "choice"
        choices := generateChoices p index
        defaultGoto := some ((nextNode.map CNode.taskName).getD "end") })
  else
    (node.taskName,
      { type := "task"
        actionIdentifier := some (mapToAction node.taskName)
        inputMapping := generateInputMapping p index
        outputExpr := some ("$\x7b" ++ node.taskName ++ "_output\x7d")
        required := some (jsGt node.frequency (9/10))
        errorHandler := some (if jsLt node.frequency (9/10) then "skip" else "fail")
        goto := [match nextNode with
                 | some nx =>
                     if nx.taskName = "BRANCH" then "choice_" ++ toString (index + 1)
                     else nx.taskName
                 | none => "end"] })

/-- One iteration of the `forEach` over consensus nodes in
`generateStates`: assign the generated state under its key. -/
def genStep (p : Pattern) (states : Obj WState) (en : ℕ × CNode) : Obj WState :=
  setVal states (nodeStateEntry p en.1 en.2 (p.consensusSequence.get? (en.1 + 1))).1
    (nodeStateEntry p en.1 en.2 (p.consensusSequence.get? (en.1 + 1))).2

/-- `generateStates(pattern)`: the validation state (targeting the
first node's name, or `'end'`), one state per consensus node, and the
`end` state.  Assignment into the JS `states` object is `setVal`, so a
duplicate key overwrites in place. -/
def generateStates (p : Pattern) : Obj WState :=
  let init : Obj WState :=
    [("input_validation",
      { type := "validation"
        validateContract := true
        goto := [((p.consensusSequence.head?).map CNode.taskName).getD "end"] })]
  let withNodes := p.consensusSequence.enum.foldl (genStep p) init
  setVal withNodes "end" { type := "end", outputExpr := some "$\x7bfinal_output\x7d" }

/-- Input contract (the per-field inferred schemas live in `schema`). -/
structure FieldSchema : Type where
  ftype : String
  examples : List JsVal
  nullable : Bool
  enumVals : Option (List JsVal)
deriving DecidableEq, Repr

structure Contract : Type where
  required : List String := []
  optional : List String := []
  schema : Obj FieldSchema := []
deriving DecidableEq, Repr

/-- All values of `field` across every task input of every trace, in
traversal order (`inferFieldSchema`'s `values` array). -/
def fieldValues (field : String) (traces : List Trace) : List JsVal :=
  (traces.map (fun tr =>
    tr.executionSequence.filterMap (fun task =>
      task.inputValues.bind (fun vals => getVal vals field)))).flatten

/-- `inferFieldSchema(field, traces)`. -/
def inferFieldSchema (field : String) (traces : List Trace) : FieldSchema :=
  let values := fieldValues field traces
  let uniqueTypes := jsDedup (values.map jsTypeof)
  { ftype := match uniqueTypes with
             | [t] => t
             | _ => "mixed"
    examples := values.take 3
    nullable := values.contains JsVal.null
    enumVals := if values.length < 10 then some (jsDedup values) else none }

/-- The keys of the first task's `input.values` of a trace (empty when
the trace is empty or the first task has no input values). -/
def firstTaskFields (tr : Trace) : List String :=
  match tr.executionSequence.head? with
  | some task =>
      match task.inputValues with
      | some vals => objKeys vals
      | none => []
  | none => []

/-- The `fieldFrequency` tally of `extractInputContract`. -/
def fieldFrequency (traces : List Trace) : Obj ℕ :=
  traces.foldl (fun acc tr => (firstTaskFields tr).foldl bumpOne acc) []

/-- `extractInputContract(pattern, traces)`: a field is `required` when
its share of first-task inputs is > 0.9, `optional` when > 0.3 (and not
required); every tallied field gets an inferred schema.  The `pattern`
argument is unused in the source as well. -/
def extractInputContract (_p : Pattern) (traces : List Trace) : Contract :=
  (fieldFrequency traces).foldl
    (fun c entry =>
      let frequency : ℚ := (entry.2 : ℚ) / (traces.length : ℚ)
      let c :=
        if frequency > 9/10 then { c with required := c.required ++ [entry.1] }
        else if frequency > 3/10 then { c with optional := c.optional ++ [entry.1] }
        else c
      { c with schema := setVal c.schema entry.1 (inferFieldSchema entry.1 traces) })
    {}

/-- A synthesized workflow, restricted to the fields read by
verification and the claims (`workflowId`, `name`, timestamps,
`outputContract`, `sourcePattern`, `traceCount` and the expected
performance profile are metadata never examined by `verifyWorkflow`
and are not modelled). -/
structure Workflow : Type where
  startAt : String
  states : Obj WState
  inputContract : Contract
  confidence : ℚ
deriving DecidableEq, Repr

/-- The workflow object assembled by `synthesizeWorkflow` before
verification. -/
def buildWorkflow (p : Pattern) (traces : List Trace) : Workflow :=
  { startAt := "input_validation"
    states := generateStates p
    inputContract := extractInputContract p traces
    confidence := p.confidence }

/-! ### Structural verifier -/

/-- The names a state pushes during the reachability BFS: its `goto`
target(s) and each choice's `goto`.  (`default` of a choice state is
never pushed by `checkReachability`.) -/
def bfsTargets (st : WState) : List String :=
  st.goto ++ st.choices.map WChoice.goto

/-- The BFS loop of `checkReachability`, with explicit fuel (one unit
per loop iteration).  A dequeued name is skipped when falsy (`""`) or
already visited; otherwise it is added to `visited` even when it is not
a declared state, and its targets (if any) are enqueued. -/
def bfsAux (states : Obj WState) : ℕ → List String → List String → List String
  | 0, _, visited => visited
  | _ + 1, [], visited => visited
  | fuel + 1, current :: queue, visited =>
      if current = "" ∨ current ∈ visited then bfsAux states fuel queue visited
      else
        match getVal states current with
        | none => bfsAux states fuel queue (current :: visited)
        | some st => bfsAux states fuel (queue ++ bfsTargets st) (current :: visited)

/-- Fuel bound for the BFS: every state can be expanded at most once,
so the number of iterations is at most one (initial queue) plus the
total number of pushed targets; the extra `states.length` is slack. -/
def bfsFuel (states : Obj WState) : ℕ :=
  1 + states.length + (states.map (fun kv => (bfsTargets kv.2).length)).sum

/-- `checkReachability(workflow)`: the visited count must equal the
declared-state count exactly. -/
def checkReachability (w : Workflow) : Bool :=
  (bfsAux w.states (bfsFuel w.states) [w.startAt] []).length = (objKeys w.states).length

/-- The `goto` targets followed by `detectCycles` (a missing state
contributes none; `choices` are never followed). -/
def gotoTargets (states : Obj WState) (node : String) : List String :=
  match getVal states node with
  | some st => st.goto
  | none => []

mutual
/-- The recursive `hasCycle(node)` of `detectCycles`, with the shared
`visited` set threaded through and the recursion stack passed down the
call path (JS pushes on entry and deletes on exit, so the live stack is
exactly the current path). -/
def hasCycleAux (states : Obj WState) :
    ℕ → String → List String → List String → Bool × List String
  | 0, _, visited, _ => (false, visited)
  | fuel + 1, node, visited, recStack =>
      if node ∈ recStack then (true, visited)
      else if node ∈ visited then (false, visited)
      else hasCycleList states fuel (gotoTargets states node) (node :: visited)
            (node :: recStack)
termination_by fuel _ _ _ => (fuel, 0)

/-- The `for (const n of next)` loop of `hasCycle`: `'end'` is the
excluded sentinel, and the first `true` short-circuits. -/
def hasCycleList (states : Obj WState) :
    ℕ → List String → List String → List String → Bool × List String
  | _, [], visited, _ => (false, visited)
  | fuel, n :: rest, visited, recStack =>
      if n = "end" then hasCycleList states fuel rest visited recStack
      else
        match hasCycleAux states fuel n visited recStack with
        | (true, visited) => (true, visited)
        | (false, visited) => hasCycleList states fuel rest visited recStack
termination_by fuel l _ _ => (fuel, l.length + 1)
end

/-- Fuel bound for `detectCycles`: the recursion depth is bounded by the
number of distinct names ever recursed on (start plus all goto targets). -/
def cycleFuel (states : Obj WState) : ℕ :=
  2 + states.length + (states.map (fun kv => kv.2.goto.length)).sum

/-- `detectCycles(workflow)`: depth-first search from the start state
along `goto` transitions only. -/
def detectCycles (w : Workflow) : Bool :=
  (hasCycleAux w.states (cycleFuel w.states) w.startAt [] []).1

/-- The named checks of `verifyWorkflow`, in source order. -/
def verifyChecks (confidenceThreshold : ℚ) (w : Workflow) : List (String × Bool) :=
  [("hasStartState", (getVal w.states w.startAt).isSome),
   ("hasEndState", (getVal w.states "end").isSome),
   ("allStatesReachable", checkReachability w),
   ("noCycles", !detectCycles w),
   ("inputContractValid", decide (0 < w.inputContract.required.length)),
   ("confidenceAboveThreshold", decide (confidenceThreshold ≤ w.confidence))]

structure VerifyResult : Type where
  valid : Bool
  reason : String
deriving DecidableEq, Repr

/-- `verifyWorkflow(workflow, traces)`: valid iff no check failed; the
reason lists the failed check names.  (The `traces` argument is unused
in the source as well.) -/
def verifyWorkflow (confidenceThreshold : ℚ) (w : Workflow) (_traces : List Trace) :
    VerifyResult :=
  let failed := ((verifyChecks confidenceThreshold w).filter (fun c => !c.2)).map Prod.fst
  { valid := failed.isEmpty
    reason := String.intercalate ", " failed }

/-- `compileWorkflow(workflow)`: the source only adds the
`executable`/`compiled` flags and an execution closure, none of which
carry verifiable content; the state graph and contracts are returned
unchanged. -/
def compileWorkflow (w : Workflow) : Workflow := w

/-- `synthesizeWorkflow(pattern, traces)`: build, verify, and return
the compiled workflow, or `null` when verification fails. -/
def synthesizeWorkflow (confidenceThreshold : ℚ) (p : Pattern) (traces : List Trace) :
    Option Workflow :=
  let w := buildWorkflow p traces
  if (verifyWorkflow confidenceThreshold w traces).valid then some (compileWorkflow w)
  else none

/-! ### Transition semantics used by claim statements -/

/-- All transition targets of a state: `goto` target(s), every choice
target, and the choice default.  This is the full edge relation of the
compiled state graph (a superset of what `checkReachability` follows,
which omits `default`). -/
def targetsOf (w : Workflow) (a : String) : List String :=
  match getVal w.states a with
  | none => []
  | some st => st.goto ++ st.choices.map WChoice.goto ++ st.defaultGoto.toList

/-- One transition step in the compiled state graph. -/
def stepRel (w : Workflow) (a b : String) : Prop := b ∈ targetsOf w a

/-- Graph reachability along workflow transitions. -/
def Reaches (w : Workflow) (a b : String) : Prop :=
  Relation.ReflTransGen (stepRel w) a b

/-- A goto/choice transition edge excluding the `End` sentinel, as in
the claim about cycle rejection. -/
def cycEdge (w : Workflow) (a b : String) : Bool :=
  b ≠ "end" &&
    (match getVal w.states a with
     | none => false
     | some st => b ∈ st.goto ∨ b ∈ st.choices.map WChoice.goto)

/-! ## Bandit router (`ThompsonSamplingRouter`)

Only the deterministic statistics manipulation is modelled
(`updateStats` and the priors); `sampleBeta`/`selectRoute` draw from
`Math.random()` and are out of scope of the claims. -/

/-- One arm's Beta parameters.  `none` models a field that is
`undefined` or `NaN` in JS (spreading a missing prior produces `{}`,
and `undefined++` produces `NaN`, which further increments keep `NaN`). -/
structure ArmStats : Type where
  alpha : Option ℕ := none
  beta : Option ℕ := none
deriving DecidableEq, Repr

/-- The constructor's `this.priors`: exactly three configured arm kinds,
each `α = β = 1`. -/
def routerPriors : Obj ArmStats :=
  [("deterministic", { alpha := some 1, beta := some 1 }),
   ("synthesized", { alpha := some 1, beta := some 1 }),
   ("llm", { alpha := some 1, beta := some 1 })]

/-- JS `x++` on a possibly-`undefined`/`NaN` number. -/
def jsIncr : Option ℕ → Option ℕ
  | some n => some (n + 1)
  | none => none

/-- `stats[route].alpha++` on success, `stats[route].beta++` on failure. -/
def armIncr (success : Bool) (a : ArmStats) : ArmStats :=
  if success then { a with alpha := jsIncr a.alpha } else { a with beta := jsIncr a.beta }

/-- `updateStats(query, route, success)` on the loaded `stats` object:
a route with no entry is first initialised from `{...this.priors[route]}`
(the empty object — both fields `undefined` — when `route` is not one of
the three configured kinds), then the outcome field is incremented. -/
def updateStats (stats : Obj ArmStats) (route : String) (success : Bool) : Obj ArmStats :=
  let arm := (getVal stats route).getD ((getVal routerPriors route).getD {})
  setVal stats route (armIncr success arm)

/-- A batch of `(route, success)` updates applied in order. -/
def applyBatch (batch : List (String × Bool)) (stats : Obj ArmStats) : Obj ArmStats :=
  batch.foldl (fun s u => updateStats s u.1 u.2) stats

/-! ## Concrete instances used by counterexamples and witnesses -/

/-- A task with singleton input/output schemas (distinct schemas make
distinct-name tasks maximally dissimilar: similarity cost 1). -/
def mkT (n : String) (i : String) : JTask :=
  { taskName := n, inputSchema := some [i], outputSchema := some [i] }

/-- Reference execution sequence of four distinct tasks. -/
def seqRef : List JTask := [mkT "A1" "a1", mkT "A2" "a2", mkT "A3" "a3", mkT "A4" "a4"]

/-- The same sequence with one extra trailing task. -/
def seqLong : List JTask := seqRef ++ [mkT "B" "b"]

/-- Two traces whose sequences differ by one trailing insertion. -/
def tracesIns : List Trace := [⟨seqRef⟩, ⟨seqLong⟩]

/-- Ten aligned sequences: a task named `t` at position 0 in nine of
them, a gap in the tenth. -/
def alignedNineOfTen : List (List JTask) :=
  List.replicate 9 [mkT "t" "x"] ++ [[gapTask]]

/-- A consensus Task node at `pos` with the given name and frequency,
with `required` as the extractor computes it. -/
def taskNode (pos : ℕ) (n : String) (f : ℚ) : CNode :=
  { position := pos, taskName := n, frequency := some f,
    required := decide (f ≥ 9/10), inputSchema := some ["q"], outputSchema := some ["q"] }

/-- A consensus Branch node at `pos`. -/
def branchNode (pos : ℕ) : CNode := { position := pos, taskName := "BRANCH" }

/-- One successful trace whose first task has a single input field `q`
(so the input contract has a required field). -/
def trOne : List Trace :=
  [⟨[{ taskName := "first", inputValues := some [("q", JsVal.str "v")] }]⟩]

/-- Pattern `[TaskA, BRANCH, TaskC]` whose branch options point at
`TaskA` (a back-edge) and `TaskC`. -/
def patChoiceCycle : Pattern :=
  { consensusSequence := [taskNode 0 "TaskA" 1, branchNode 1, taskNode 2 "TaskC" 1],
    guardConditions := [⟨1, [("TaskA", Cond.s "a"), ("TaskC", Cond.s "b")]⟩],
    confidence := 1 }

/-- Pattern `[A, BRANCH, BRANCH, C]`: the first branch's options are
`C` and the dangling name `X`; the second branch has no guards, and its
choice state `choice_2` is referenced by nothing. -/
def patOrphanChoice : Pattern :=
  { consensusSequence := [taskNode 0 "A" 1, branchNode 1, branchNode 2, taskNode 3 "C" 1],
    guardConditions := [⟨1, [("C", Cond.s "a"), ("X", Cond.s "b")]⟩],
    confidence := 1 }

/-- A branch-first pattern with an ordinary task name. -/
def patBranchFirst : Pattern :=
  { consensusSequence := [branchNode 0, taskNode 1 "B" 1], confidence := 1 }

/-- Branch-first pattern whose later tasks are named
`input_validation` (overwriting the validation state) and `choice_0`. -/
def patBranchFirstOverwrite : Pattern :=
  { consensusSequence :=
      [branchNode 0, taskNode 1 "input_validation" 1, taskNode 2 "choice_0" 1],
    confidence := 1 }

/-- Ten traces whose first task carries field `f` in nine of them and
field `g` in the tenth. -/
def tracesNineOfTen : List Trace :=
  List.replicate 9 (⟨[{ taskName := "w", inputValues := some [("f", JsVal.num 1)] }]⟩ : Trace) ++
  [⟨[{ taskName := "w", inputValues := some [("g", JsVal.num 2)] }]⟩]

/-- A trivial pattern (the synthesizer's `extractInputContract` ignores
its pattern argument). -/
def patEmpty : Pattern := { consensusSequence := [], confidence := 1 }

/-- Two traces whose first tasks carry disjoint single fields, so no
field reaches a 90% share. -/
def tracesNoMajority : List Trace :=
  [⟨[{ taskName := "w", inputValues := some [("a", JsVal.num 1)] }]⟩,
   ⟨[{ taskName := "w", inputValues := some [("b", JsVal.num 2)] }]⟩]

/-! ## Router lemmas -/

theorem getVal_updateStats_same (stats : Obj ArmStats) (route : String) (success : Bool) :
    getVal (updateStats stats route success) route =
      some (armIncr success ((getVal stats route).getD ((getVal routerPriors route).getD {}))) :=
  getVal_setVal_same _ _ _

theorem getVal_updateStats_ne (stats : Obj ArmStats) (route r : String) (success : Bool)
    (h : r ≠ route) :
    getVal (updateStats stats route success) r = getVal stats r :=
  getVal_setVal_ne _ _ _ _ h

theorem armIncr_comm (s t : Bool) (a : ArmStats) :
    armIncr s (armIncr t a) = armIncr t (armIncr s a) := by
  cases s <;> cases t <;> rfl

theorem updateStats_comm (stats : Obj ArmStats) (r1 : String) (s1 : Bool) (r2 : String)
    (s2 : Bool) (r : String) :
    getVal (updateStats (updateStats stats r1 s1) r2 s2) r =
      getVal (updateStats (updateStats stats r2 s2) r1 s1) r := by
  by_cases h12 : r1 = r2
  · subst h12
    by_cases hr : r = r1
    · subst hr
      rw [getVal_updateStats_same (updateStats stats r s1) r s2,
        getVal_updateStats_same stats r s1,
        getVal_updateStats_same (updateStats stats r s2) r s1,
        getVal_updateStats_same stats r s2]
      simp [armIncr_comm]
    · rw [getVal_updateStats_ne (updateStats stats r1 s1) r1 r s2 hr,
        getVal_updateStats_ne stats r1 r s1 hr,
        getVal_updateStats_ne (updateStats stats r1 s2) r1 r s1 hr,
        getVal_updateStats_ne stats r1 r s2 hr]
  · by_cases hr1 : r = r1
    · subst hr1
      have h21 : ¬ r = r2 := fun hc => h12 hc
      rw [getVal_updateStats_ne (updateStats stats r s1) r2 r s2 h21,
        getVal_updateStats_same stats r s1,
        getVal_updateStats_same (updateStats stats r2 s2) r s1,
        getVal_updateStats_ne stats r2 r s2 h21]
    · by_cases hr2 : r = r2
      · subst hr2
        have h21 : ¬ r = r1 := hr1
        rw [getVal_updateStats_same (updateStats stats r1 s1) r s2,
          getVal_updateStats_ne stats r1 r s1 h21,
          getVal_updateStats_ne (updateStats stats r s2) r1 r s1 h21,
          getVal_updateStats_same stats r s2]
      · rw [getVal_updateStats_ne (updateStats stats r1 s1) r2 r s2 hr2,
          getVal_updateStats_ne stats r1 r s1 hr1,
          getVal_updateStats_ne (updateStats stats r2 s2) r1 r s1 hr1,
          getVal_updateStats_ne stats r2 r s2 hr2]

theorem applyBatch_congr (l : List (String × Bool)) (s s' : Obj ArmStats)
    (h : ∀ r, getVal s r = getVal s' r) :
    ∀ r, getVal (applyBatch l s) r = getVal (applyBatch l s') r := by
  induction l generalizing s s' with
  | nil => exact h
  | cons u rest ih =>
      refine ih (updateStats s u.1 u.2) (updateStats s' u.1 u.2) (fun r => ?_)
      by_cases hr : r = u.1
      · subst hr
        rw [getVal_updateStats_same, getVal_updateStats_same, h u.1]
      · rw [getVal_updateStats_ne _ _ _ _ hr, getVal_updateStats_ne _ _ _ _ hr, h r]

theorem applyBatch_perm (l₁ l₂ : List (String × Bool)) (h : l₁.Perm l₂) :
    ∀ (s : Obj ArmStats) (r : String),
      getVal (applyBatch l₁ s) r = getVal (applyBatch l₂ s) r := by
  induction h with
  | nil => intro s r; rfl
  | cons u _ ih =>
      intro s r
      exact ih (updateStats s u.1 u.2) r
  | swap u v l =>
      intro s r
      show getVal (applyBatch l (updateStats (updateStats s v.1 v.2) u.1 u.2)) r =
        getVal (applyBatch l (updateStats (updateStats s u.1 u.2) v.1 v.2)) r
      exact applyBatch_congr l _ _ (fun r => updateStats_comm s v.1 v.2 u.1 u.2 r) r
  | trans _ _ ih1 ih2 =>
      intro s r
      exact (ih1 s r).trans (ih2 s r)

/-! ## Claim C8 -/

/-- C8: each router update increments `α` by one on success or `β` by
one on failure for the arm that was used, leaves every other arm's
`(α, β)` unchanged, and consequently any batch of success/failure
increments yields the same final `(α, β)` for every arm when applied in
any order. -/
theorem claim8_router_updates_commute :
    (∀ (stats : Obj ArmStats) (route : String) (a b : ℕ),
       getVal stats route = some { alpha := some a, beta := some b } →
         getVal (updateStats stats route true) route =
           some { alpha := some (a + 1), beta := some b } ∧
         getVal (updateStats stats route false) route =
           some { alpha := some a, beta := some (b + 1) }) ∧
    (∀ (stats : Obj ArmStats) (route r : String) (success : Bool), r ≠ route →
       getVal (updateStats stats route success) r = getVal stats r) ∧
    (∀ l₁ l₂ : List (String × Bool), l₁.Perm l₂ →
       ∀ (stats : Obj ArmStats) (r : String),
         getVal (applyBatch l₁ stats) r = getVal (applyBatch l₂ stats) r) := by
  refine ⟨fun stats route a b h => ?_, fun stats route r success h => ?_,
    applyBatch_perm⟩
  · rw [getVal_updateStats_same, getVal_updateStats_same, h]
    exact ⟨rfl, rfl⟩
  · exact getVal_updateStats_ne _ _ _ _ h

/-- Witness for C8 at concrete inputs: a used arm's `α` is incremented,
an unused arm is untouched, and a transposed batch gives the same
statistics. -/
theorem claim8_witness :
    (getVal (updateStats [("llm", { alpha := some 3, beta := some 2 })] "llm" true) "llm" =
       some { alpha := some 4, beta := some 2 }) ∧
    (getVal (updateStats [("llm", { alpha := some 3, beta := some 2 }),
        ("deterministic", { alpha := some 7, beta := some 1 })] "llm" true) "deterministic" =
       some { alpha := some 7, beta := some 1 }) ∧
    (getVal (applyBatch [("llm", true), ("deterministic", false)] []) "llm" =
       getVal (applyBatch [("deterministic", false), ("llm", true)] []) "llm") := by
  refine ⟨(claim8_router_updates_commute.1 _ "llm" 3 2 (by decide)).1, ?_, ?_⟩
  · exact claim8_router_updates_commute.2.1 _ "llm" "deterministic" true (by decide)
  · exact claim8_router_updates_commute.2.2 _ _ (by decide) [] "llm"

/-! ## Claim C7 -/

/-- C7 counterexample: the prior table has no entry for an arm named
`synthesized:F`, so `updateStats` on that fresh arm spreads `undefined`
into an empty record and the increment produces `NaN` — the arm does
not begin from `α = β = 1` (which would give `α = 2, β = 1` after a
success). -/
theorem claim7_counterexample :
    getVal routerPriors "synthesized:F" = none ∧
    getVal (updateStats [] "synthesized:F" true) "synthesized:F" =
      some { alpha := none, beta := none } ∧
    getVal (updateStats [] "synthesized:F" true) "synthesized:F" ≠
      some { alpha := some 2, beta := some 1 } := by
  refine ⟨by decide, by decide, by decide⟩

/-- C7 (amended): an arm named exactly `deterministic`, `synthesized`
or `llm` with no existing statistics starts from the configured prior
`α = β = 1` (so its first update yields `(2, 1)` on success or `(1, 2)`
on failure) without touching any other arm; an arm with any other name
(such as `synthesized:F`) instead starts from an empty record whose
increment is `NaN`. -/
theorem claim7_amended_new_arm_prior (stats : Obj ArmStats) (route : String) (success : Bool)
    (hroute : route = "deterministic" ∨ route = "synthesized" ∨ route = "llm")
    (hnew : getVal stats route = none) :
    getVal (updateStats stats route success) route =
      some (armIncr success { alpha := some 1, beta := some 1 }) ∧
    ∀ r, r ≠ route → getVal (updateStats stats route success) r = getVal stats r := by
  have hprior : getVal routerPriors route = some { alpha := some 1, beta := some 1 } := by
    rcases hroute with h | h | h <;> subst h <;> decide
  refine ⟨?_, fun r hr => getVal_updateStats_ne _ _ _ _ hr⟩
  rw [getVal_updateStats_same, hnew, hprior]
  rfl

/-- Witness for C7 at concrete inputs: a fresh `synthesized` arm starts
from the prior (success gives `(2, 1)`) and the existing `llm` arm is
untouched. -/
theorem claim7_witness :
    getVal (updateStats [("llm", { alpha := some 5, beta := some 3 })] "synthesized" true)
        "synthesized" = some { alpha := some 2, beta := some 1 } ∧
    getVal (updateStats [("llm", { alpha := some 5, beta := some 3 })] "synthesized" true)
        "llm" = some { alpha := some 5, beta := some 3 } := by
  have h := claim7_amended_new_arm_prior
    [("llm", { alpha := some 5, beta := some 3 })] "synthesized" true
    (Or.inr (Or.inl rfl)) (by decide)
  exact ⟨h.1, h.2 "llm" (by decide)⟩

/-! ## Consensus extraction lemmas -/

theorem countTasks_foldl_all_same (col : List JTask) (x : String)
    (hx : ∀ t ∈ col, t.taskName ≠ "GAP" → t.taskName = x) (k : ℕ) :
    col.foldl (fun acc task => if task.taskName = "GAP" then acc else bumpOne acc task.taskName)
        [(x, k)] = [(x, k + totalNonGap col)] := by
  induction col generalizing k with
  | nil => simp [totalNonGap]
  | cons t rest ih =>
      have hrest : ∀ u ∈ rest, u.taskName ≠ "GAP" → u.taskName = x :=
        fun u hu => hx u (List.mem_cons_of_mem _ hu)
      by_cases hgap : t.taskName = "GAP"
      · simp only [List.foldl_cons, if_pos hgap]
        rw [ih hrest k]
        simp [totalNonGap, hgap]
      · have hname : t.taskName = x := hx t (List.mem_cons_self _ _) hgap
        simp only [List.foldl_cons, if_neg hgap]
        have hbump : bumpOne [(x, k)] t.taskName = [(x, k + 1)] := by
          rw [hname]
          simp [bumpOne, getVal, setVal]
        rw [hbump, ih hrest (k + 1)]
        have htot : totalNonGap (t :: rest) = totalNonGap rest + 1 := by
          simp [totalNonGap, hgap]
        rw [htot]
        ring_nf

theorem countTasks_all_same (col : List JTask) (x : String)
    (hx : ∀ t ∈ col, t.taskName ≠ "GAP" → t.taskName = x)
    (hpos : totalNonGap col ≠ 0) :
    countTasks col = [(x, totalNonGap col)] := by
  induction col with
  | nil => simp [totalNonGap] at hpos
  | cons t rest ih =>
      have hrest : ∀ u ∈ rest, u.taskName ≠ "GAP" → u.taskName = x :=
        fun u hu => hx u (List.mem_cons_of_mem _ hu)
      by_cases hgap : t.taskName = "GAP"
      · have htot : totalNonGap (t :: rest) = totalNonGap rest := by
          simp [totalNonGap, hgap]
        rw [htot] at hpos ⊢
        simp only [countTasks, List.foldl_cons, if_pos hgap]
        exact ih hrest hpos
      · have hname : t.taskName = x := hx t (List.mem_cons_self _ _) hgap
        simp only [countTasks, List.foldl_cons, if_neg hgap]
        have hbump : bumpOne [] t.taskName = [(t.taskName, 1)] := by
          simp [bumpOne, getVal, setVal]
        rw [hbump, hname, countTasks_foldl_all_same rest x hrest 1]
        have htot : totalNonGap (t :: rest) = totalNonGap rest + 1 := by
          simp [totalNonGap, hgap]
        rw [htot]
        ring_nf

/-- Some non-gap entry exists when the non-gap count is positive. -/
theorem exists_nonGap_of_totalNonGap_pos (col : List JTask)
    (hpos : totalNonGap col ≠ 0) :
    ∃ t ∈ col, t.taskName ≠ "GAP" := by
  by_contra hc
  push_neg at hc
  have : totalNonGap col = 0 := by
    simp only [totalNonGap, List.length_eq_zero, List.filter_eq_nil_iff]
    intro t ht
    simpa using hc t ht
  exact hpos this

/-! ## Claim C2 -/

set_option maxRecDepth 4000 in
/-- C2 counterexample: with 10 aligned sequences and consensus
threshold 0.8, a task present at a position in exactly 9 of the 10
(the tenth a gap) is emitted as a Task node with `required = true`,
not `required = false`: its frequency is 9/10 and the required test is
`≥ 0.9`. -/
theorem claim2_counterexample :
    (extractConsensusPattern (4/5) alignedNineOfTen).map
        (fun nd => (nd.taskName, nd.required, nd.frequency)) =
      [("t", true, some (9/10))] := by
  with_unfolding_all decide

/-- C2 (amended): for a position of 10 aligned sequences at which a
task name appears in exactly 9 (the tenth a gap), the consensus
extractor emits a Task node for it with frequency 9/10 and
`required = true` (the 0.9 share meets the `≥ 0.9` required test), under
consensus threshold 0.8. -/
theorem claim2_amended_nine_of_ten (col : List JTask) (x : String) (pos : ℕ)
    (_hlen : col.length = 10)
    (hcount : totalNonGap col = 9)
    (hx : ∀ t ∈ col, t.taskName ≠ "GAP" → t.taskName = x) :
    (consensusAt (4/5) 10 col pos).taskName = x ∧
    (consensusAt (4/5) 10 col pos).frequency = some (9/10) ∧
    (consensusAt (4/5) 10 col pos).required = true := by
  have hcounts : countTasks col = [(x, 9)] := by
    rw [countTasks_all_same col x hx (by rw [hcount]; decide), hcount]
  have hbest : maxConsensus (countTasks col) = (some x, 9) := by
    rw [hcounts]
    rfl
  obtain ⟨t0, ht0mem, ht0⟩ :=
    exists_nonGap_of_totalNonGap_pos col (by rw [hcount]; decide)
  have ht0x : t0.taskName = x := hx t0 ht0mem ht0
  have hfind : (col.find? (fun t => t.taskName = x)).isSome := by
    rw [List.find?_isSome]
    exact ⟨t0, ht0mem, by simp [ht0x]⟩
  obtain ⟨rep, hrep⟩ := Option.isSome_iff_exists.mp hfind
  have hth : ((((some x, 9) : Option String × ℕ).2 : ℕ) : ℚ) / ((totalNonGap col : ℕ) : ℚ) ≥
      (4 : ℚ)/5 := by
    rw [hcount]
    norm_num
  simp only [consensusAt, hbest, hcount] at hth ⊢
  rw [if_pos hth, hrep]
  refine ⟨rfl, ?_, ?_⟩
  · show some (((9 : ℕ) : ℚ) / ((10 : ℕ) : ℚ)) = some (9/10)
    norm_num
  · show decide (((9 : ℕ) : ℚ) / ((10 : ℕ) : ℚ) ≥ 9/10) = true
    rw [decide_eq_true_iff]
    norm_num

/-- Witness for the amended C2 at a concrete aligned column. -/
theorem claim2_witness :
    (consensusAt (4/5) 10 (List.replicate 9 (mkT "t" "x") ++ [gapTask]) 0).taskName = "t" ∧
    (consensusAt (4/5) 10 (List.replicate 9 (mkT "t" "x") ++ [gapTask]) 0).frequency =
      some (9/10) ∧
    (consensusAt (4/5) 10 (List.replicate 9 (mkT "t" "x") ++ [gapTask]) 0).required = true := by
  refine claim2_amended_nine_of_ten _ "t" 0 (by decide) (by decide) ?_
  intro t ht hgap
  rw [List.mem_append, List.mem_replicate] at ht
  rcases ht with ⟨_, rfl⟩ | ht
  · rfl
  · rw [List.mem_singleton] at ht
    subst ht
    exact absurd rfl hgap

/-! ## Claim C5 -/

/-- Shape invariant of consensus nodes: Branch nodes are named
`BRANCH` and carry no frequency; Task nodes carry a frequency `f` with
`required` exactly `f ≥ 0.9`. -/
theorem consensusAt_shape (θ : ℚ) (numSeqs : ℕ) (col : List JTask) (pos : ℕ) :
    ((consensusAt θ numSeqs col pos).taskName = "BRANCH" ∧
      (consensusAt θ numSeqs col pos).frequency = none) ∨
    (∃ f : ℚ, (consensusAt θ numSeqs col pos).frequency = some f ∧
      (consensusAt θ numSeqs col pos).required = decide (f ≥ 9/10)) := by
  simp only [consensusAt]
  split
  · split
    · split
      · exact Or.inr ⟨_, rfl, rfl⟩
      · exact Or.inr ⟨_, rfl, rfl⟩
    · exact Or.inl ⟨rfl, rfl⟩
  · exact Or.inl ⟨rfl, rfl⟩

theorem extractConsensusPattern_shape (θ : ℚ) (aligned : List (List JTask)) (node : CNode)
    (hmem : node ∈ extractConsensusPattern θ aligned) :
    (node.taskName = "BRANCH" ∧ node.frequency = none) ∨
    (∃ f : ℚ, node.frequency = some f ∧ node.required = decide (f ≥ 9/10)) := by
  simp only [extractConsensusPattern, List.mem_map] at hmem
  obtain ⟨pos, _, rfl⟩ := hmem
  exact consensusAt_shape θ aligned.length _ pos

/-- C5: for every consensus Task node (as produced by the extractor),
the compiled task state's error policy is `'fail'` (abort the workflow)
exactly when the node is required and `'skip'` (continue to the next
state) exactly when it is optional — including at frequency exactly
0.9, where the node is required and the policy is `'fail'`. -/
theorem claim5_task_error_policy (θ : ℚ) (aligned : List (List JTask)) (node : CNode)
    (hmem : node ∈ extractConsensusPattern θ aligned)
    (hname : node.taskName ≠ "BRANCH")
    (p : Pattern) (index : ℕ) (nextNode : Option CNode) :
    ((nodeStateEntry p index node nextNode).2.errorHandler = some "fail" ↔
      node.required = true) ∧
    ((nodeStateEntry p index node nextNode).2.errorHandler = some "skip" ↔
      node.required = false) := by
  rcases extractConsensusPattern_shape θ aligned node hmem with ⟨hbr, _⟩ | ⟨f, hf, hreq⟩
  · exact absurd hbr hname
  · simp only [nodeStateEntry, if_neg hname]
    by_cases hlt : f < 9/10
    · have h1 : jsLt node.frequency (9/10) = true := by
        rw [hf]
        simp only [jsLt]
        exact decide_eq_true hlt
      have h2 : node.required = false := by
        rw [hreq, decide_eq_false_iff_not]
        exact not_le.mpr hlt
      rw [h1, h2]
      simp
    · have h1 : jsLt node.frequency (9/10) = false := by
        rw [hf]
        simp only [jsLt]
        exact decide_eq_false hlt
      have h2 : node.required = true := by
        rw [hreq]
        exact decide_eq_true (not_lt.mp hlt)
      rw [h1, h2]
      simp

/-- The node the extractor emits for the nine-of-ten column. -/
def nodeNineOfTen : CNode :=
  { position := 0, taskName := "t", frequency := some (9/10), required := true,
    inputSchema := some ["x"], outputSchema := some ["x"] }

set_option maxRecDepth 4000 in
/-- Witness for C5 at a concrete extracted node with frequency exactly
0.9: its compiled error handler is `'fail'` and the node is required. -/
theorem claim5_witness :
    (nodeStateEntry { consensusSequence := [], confidence := 1 } 0 nodeNineOfTen
        none).2.errorHandler = some "fail" ∧ nodeNineOfTen.required = true := by
  have hmem : nodeNineOfTen ∈ extractConsensusPattern (4/5) alignedNineOfTen := by
    with_unfolding_all decide
  exact ⟨(claim5_task_error_policy (4/5) alignedNineOfTen _ hmem (by decide)
    { consensusSequence := [], confidence := 1 } 0 none).1.mpr rfl, rfl⟩

/-! ## Input-contract lemmas -/

/-- The number of traces whose first task's input carries `field`. -/
def fieldCount (field : String) (traces : List Trace) : ℕ :=
  (traces.filter (fun tr => field ∈ firstTaskFields tr)).length

/-- Every field name occurring in some trace's first-task input. -/
def allFirstTaskFields (traces : List Trace) : List String :=
  (traces.map firstTaskFields).flatten

theorem getD_foldl_bumpOne (ks : List String) (acc : Obj ℕ) (f : String) :
    (getVal (ks.foldl bumpOne acc) f).getD 0 = (getVal acc f).getD 0 + ks.count f := by
  induction ks generalizing acc with
  | nil => simp
  | cons k ks ih =>
      rw [List.foldl_cons, ih (bumpOne acc k)]
      by_cases hk : f = k
      · subst hk
        rw [bumpOne, getVal_setVal_same]
        simp only [Option.getD_some, List.count_cons_self]
        omega
      · rw [bumpOne, getVal_setVal_ne _ _ _ _ hk]
        have : ks.count f = (k :: ks).count f := by
          simp [List.count_cons, Ne.symm hk]
        omega

theorem getVal_foldl_bumpOne_eq_none (ks : List String) (acc : Obj ℕ) (f : String) :
    getVal (ks.foldl bumpOne acc) f = none ↔ getVal acc f = none ∧ f ∉ ks := by
  induction ks generalizing acc with
  | nil => simp
  | cons k ks ih =>
      rw [List.foldl_cons, ih (bumpOne acc k)]
      by_cases hk : f = k
      · subst hk
        rw [bumpOne, getVal_setVal_same]
        simp
      · rw [bumpOne, getVal_setVal_ne _ _ _ _ hk]
        simp [hk]

theorem getD_fieldFrequency (traces : List Trace) (f : String)
    (hwf : ∀ tr ∈ traces, (firstTaskFields tr).Nodup) :
    (getVal (fieldFrequency traces) f).getD 0 = fieldCount f traces := by
  suffices h : ∀ acc : Obj ℕ, (getVal (traces.foldl
      (fun acc tr => (firstTaskFields tr).foldl bumpOne acc) acc) f).getD 0 =
      (getVal acc f).getD 0 + fieldCount f traces by
    have := h []
    simpa [fieldFrequency, getVal] using this
  induction traces with
  | nil => intro acc; simp [fieldCount]
  | cons tr traces ih =>
      intro acc
      have hwftr := hwf tr (List.mem_cons_self _ _)
      have hwf' : ∀ u ∈ traces, (firstTaskFields u).Nodup :=
        fun u hu => hwf u (List.mem_cons_of_mem _ hu)
      rw [List.foldl_cons, ih hwf' (List.foldl bumpOne acc (firstTaskFields tr)),
        getD_foldl_bumpOne]
      have hcount : fieldCount f (tr :: traces) =
          (if f ∈ firstTaskFields tr then 1 else 0) + fieldCount f traces := by
        by_cases hm : f ∈ firstTaskFields tr
        · simp [fieldCount, hm]
          omega
        · simp [fieldCount, hm]
      have hc : (firstTaskFields tr).count f = (if f ∈ firstTaskFields tr then 1 else 0) := by
        by_cases hm : f ∈ firstTaskFields tr
        · rw [if_pos hm]
          exact List.count_eq_one_of_mem hwftr hm
        · rw [if_neg hm]
          exact List.count_eq_zero_of_not_mem hm
      rw [hcount, hc]
      omega

theorem getVal_fieldFrequency_eq_none (traces : List Trace) (f : String) :
    getVal (fieldFrequency traces) f = none ↔ ∀ tr ∈ traces, f ∉ firstTaskFields tr := by
  suffices h : ∀ acc : Obj ℕ, getVal (traces.foldl
      (fun acc tr => (firstTaskFields tr).foldl bumpOne acc) acc) f = none ↔
      getVal acc f = none ∧ ∀ tr ∈ traces, f ∉ firstTaskFields tr by
    have := h []
    simpa [fieldFrequency, getVal] using this
  induction traces with
  | nil => intro acc; simp
  | cons tr traces ih =>
      intro acc
      rw [List.foldl_cons, ih (List.foldl bumpOne acc (firstTaskFields tr)),
        getVal_foldl_bumpOne_eq_none]
      constructor
      · rintro ⟨⟨h1, h2⟩, h3⟩
        exact ⟨h1, fun u hu => by
          rcases List.mem_cons.mp hu with rfl | hu
          · exact h2
          · exact h3 u hu⟩
      · rintro ⟨h1, h2⟩
        exact ⟨⟨h1, h2 tr (List.mem_cons_self _ _)⟩,
          fun u hu => h2 u (List.mem_cons_of_mem _ hu)⟩

theorem fieldCount_pos_mem (traces : List Trace) (f : String)
    (h : fieldCount f traces ≠ 0) : f ∈ allFirstTaskFields traces := by
  rw [fieldCount] at h
  have : ∃ tr ∈ traces, f ∈ firstTaskFields tr := by
    by_contra hc
    push_neg at hc
    have : traces.filter (fun tr => f ∈ firstTaskFields tr) = [] := by
      rw [List.filter_eq_nil_iff]
      intro tr htr
      simpa using hc tr htr
    rw [this] at h
    exact h rfl
  obtain ⟨tr, htr, hf⟩ := this
  rw [allFirstTaskFields, List.mem_flatten]
  exact ⟨firstTaskFields tr, List.mem_map_of_mem _ htr, hf⟩

/-- Keys of the field-frequency tally are duplicate-free. -/
theorem fieldFrequency_nodup (traces : List Trace) :
    (objKeys (fieldFrequency traces)).Nodup := by
  suffices h : ∀ acc : Obj ℕ, (objKeys acc).Nodup →
      (objKeys (traces.foldl (fun acc tr => (firstTaskFields tr).foldl bumpOne acc) acc)).Nodup by
    exact h [] (by simp)
  intro acc hacc
  induction traces generalizing acc with
  | nil => exact hacc
  | cons tr traces ih =>
      rw [List.foldl_cons]
      refine ih _ ?_
      have : ∀ (ks : List String) (m : Obj ℕ), (objKeys m).Nodup →
          (objKeys (ks.foldl bumpOne m)).Nodup := by
        intro ks
        induction ks with
        | nil => intro m hm; exact hm
        | cons k ks ihk =>
            intro m hm
            rw [List.foldl_cons]
            exact ihk _ (objKeys_setVal_nodup _ _ _ hm)
      exact this _ _ hacc

/-- In a key-duplicate-free object, entry membership coincides with
lookup. -/
theorem mem_iff_getVal {α : Type} (m : Obj α) (k : String) (v : α)
    (hnd : (objKeys m).Nodup) : (k, v) ∈ m ↔ getVal m k = some v := by
  induction m with
  | nil => simp [getVal]
  | cons p rest ih =>
      obtain ⟨k', w⟩ := p
      rw [objKeys_cons, List.nodup_cons] at hnd
      by_cases hk : k' = k
      · subst hk
        rw [getVal]
        simp only [if_pos rfl, List.mem_cons]
        constructor
        · rintro (h | h)
          · cases h; rfl
          · exact absurd (mem_objKeys_of_getVal_some ((ih hnd.2).mp h)) hnd.1
        · rintro h
          cases h
          exact Or.inl rfl
      · rw [getVal]
        rw [if_neg hk]
        rw [List.mem_cons, ih hnd.2]
        constructor
        · rintro (h | h)
          · cases h; exact absurd rfl hk
          · exact h
        · exact Or.inr

/-- Required/optional membership after the contract-building fold. -/
theorem extractInputContract_fold_mem (entries : Obj ℕ) (n : ℚ) (c0 : Contract)
    (traces : List Trace) (f : String) :
    (f ∈ (entries.foldl
      (fun c entry =>
        let frequency : ℚ := (entry.2 : ℚ) / n
        let c :=
          if frequency > 9/10 then { c with required := c.required ++ [entry.1] }
          else if frequency > 3/10 then { c with optional := c.optional ++ [entry.1] }
          else c
        { c with schema := setVal c.schema entry.1 (inferFieldSchema entry.1 traces) }) c0).required ↔
      f ∈ c0.required ∨ ∃ cnt : ℕ, (f, cnt) ∈ entries ∧ (cnt : ℚ) / n > 9/10) ∧
    (f ∈ (entries.foldl
      (fun c entry =>
        let frequency : ℚ := (entry.2 : ℚ) / n
        let c :=
          if frequency > 9/10 then { c with required := c.required ++ [entry.1] }
          else if frequency > 3/10 then { c with optional := c.optional ++ [entry.1] }
          else c
        { c with schema := setVal c.schema entry.1 (inferFieldSchema entry.1 traces) }) c0).optional ↔
      f ∈ c0.optional ∨ ∃ cnt : ℕ, (f, cnt) ∈ entries ∧ ¬ ((cnt : ℚ) / n > 9/10) ∧
        (cnt : ℚ) / n > 3/10) := by
  induction entries generalizing c0 with
  | nil => simp
  | cons e rest ih =>
      obtain ⟨k, cnt⟩ := e
      rw [List.foldl_cons]
      by_cases h9 : (cnt : ℚ) / n > 9/10
      · have := ih
          { c0 with
              required := c0.required ++ [k]
              schema := setVal c0.schema k (inferFieldSchema k traces) }
        simp only [if_pos h9] at this ⊢
        rw [this.1, this.2]
        constructor
        · constructor
          · rintro (h | h)
            · rw [List.mem_append, List.mem_singleton] at h
              rcases h with h | rfl
              · exact Or.inl h
              · exact Or.inr ⟨cnt, List.mem_cons_self _ _, h9⟩
            · obtain ⟨c, hc, hgt⟩ := h
              exact Or.inr ⟨c, List.mem_cons_of_mem _ hc, hgt⟩
          · rintro (h | ⟨c, hc, hgt⟩)
            · exact Or.inl (List.mem_append.mpr (Or.inl h))
            · rcases List.mem_cons.mp hc with heq | hc
              · injection heq with h1 h2
                subst h1
                exact Or.inl (List.mem_append.mpr (Or.inr (List.mem_singleton.mpr rfl)))
              · exact Or.inr ⟨c, hc, hgt⟩
        · constructor
          · rintro (h | h)
            · exact Or.inl h
            · obtain ⟨c, hc, hng, hgt⟩ := h
              exact Or.inr ⟨c, List.mem_cons_of_mem _ hc, hng, hgt⟩
          · rintro (h | ⟨c, hc, hng, hgt⟩)
            · exact Or.inl h
            · rcases List.mem_cons.mp hc with heq | hc
              · cases heq
                exact absurd h9 hng
              · exact Or.inr ⟨c, hc, hng, hgt⟩
      · by_cases h3 : (cnt : ℚ) / n > 3/10
        · have := ih
            { c0 with
                optional := c0.optional ++ [k]
                schema := setVal c0.schema k (inferFieldSchema k traces) }
          simp only [if_neg h9, if_pos h3] at this ⊢
          rw [this.1, this.2]
          constructor
          · constructor
            · rintro (h | h)
              · exact Or.inl h
              · obtain ⟨c, hc, hgt⟩ := h
                exact Or.inr ⟨c, List.mem_cons_of_mem _ hc, hgt⟩
            · rintro (h | ⟨c, hc, hgt⟩)
              · exact Or.inl h
              · rcases List.mem_cons.mp hc with heq | hc
                · cases heq
                  exact absurd hgt h9
                · exact Or.inr ⟨c, hc, hgt⟩
          · constructor
            · rintro (h | h)
              · rw [List.mem_append, List.mem_singleton] at h
                rcases h with h | rfl
                · exact Or.inl h
                · exact Or.inr ⟨cnt, List.mem_cons_self _ _, h9, h3⟩
              · obtain ⟨c, hc, hng, hgt⟩ := h
                exact Or.inr ⟨c, List.mem_cons_of_mem _ hc, hng, hgt⟩
            · rintro (h | ⟨c, hc, hng, hgt⟩)
              · exact Or.inl (by rw [List.mem_append]; exact Or.inl h)
              · rcases List.mem_cons.mp hc with heq | hc
                · cases heq
                  exact Or.inl (by rw [List.mem_append, List.mem_singleton]; exact Or.inr rfl)
                · exact Or.inr ⟨c, hc, hng, hgt⟩
        · have := ih { c0 with schema := setVal c0.schema k (inferFieldSchema k traces) }
          simp only [if_neg h9, if_neg h3] at this ⊢
          rw [this.1, this.2]
          constructor
          · constructor
            · rintro (h | h)
              · exact Or.inl h
              · obtain ⟨c, hc, hgt⟩ := h
                exact Or.inr ⟨c, List.mem_cons_of_mem _ hc, hgt⟩
            · rintro (h | ⟨c, hc, hgt⟩)
              · exact Or.inl h
              · rcases List.mem_cons.mp hc with heq | hc
                · cases heq
                  exact absurd hgt h9
                · exact Or.inr ⟨c, hc, hgt⟩
          · constructor
            · rintro (h | h)
              · exact Or.inl h
              · obtain ⟨c, hc, hng, hgt⟩ := h
                exact Or.inr ⟨c, List.mem_cons_of_mem _ hc, hng, hgt⟩
            · rintro (h | ⟨c, hc, hng, hgt⟩)
              · exact Or.inl h
              · rcases List.mem_cons.mp hc with heq | hc
                · cases heq
                  exact absurd hgt h3
                · exact Or.inr ⟨c, hc, hng, hgt⟩

/-- The field-frequency tally looks up to exactly the trace count of a
field that occurs at all. -/
theorem getVal_fieldFrequency_eq (traces : List Trace) (f : String)
    (hwf : ∀ tr ∈ traces, (firstTaskFields tr).Nodup)
    (hpos : fieldCount f traces ≠ 0) :
    getVal (fieldFrequency traces) f = some (fieldCount f traces) := by
  rcases hval : getVal (fieldFrequency traces) f with _ | v
  · exfalso
    have hnone := (getVal_fieldFrequency_eq_none traces f).mp hval
    have : fieldCount f traces = 0 := by
      rw [fieldCount, List.length_eq_zero, List.filter_eq_nil_iff]
      intro tr htr
      simpa using hnone tr htr
    exact hpos this
  · have hd := getD_fieldFrequency traces f hwf
    rw [hval] at hd
    simp only [Option.getD_some] at hd
    rw [hd]

/-- Characterisation of `extractInputContract` membership: a field is
required iff its first-task share is strictly above 0.9, optional iff
strictly above 0.3 but not above 0.9. -/
theorem extractInputContract_mem_iff (p : Pattern) (traces : List Trace) (f : String)
    (hwf : ∀ tr ∈ traces, (firstTaskFields tr).Nodup) :
    (f ∈ (extractInputContract p traces).required ↔
      (fieldCount f traces : ℚ) / (traces.length : ℚ) > 9/10) ∧
    (f ∈ (extractInputContract p traces).optional ↔
      ((fieldCount f traces : ℚ) / (traces.length : ℚ) > 3/10 ∧
       (fieldCount f traces : ℚ) / (traces.length : ℚ) ≤ 9/10)) := by
  have hfold := extractInputContract_fold_mem (fieldFrequency traces)
    ((traces.length : ℕ) : ℚ) {} traces f
  have hnd := fieldFrequency_nodup traces
  have hcnt_of_mem : ∀ cnt : ℕ, (f, cnt) ∈ fieldFrequency traces → cnt = fieldCount f traces := by
    intro cnt hm
    have := (mem_iff_getVal _ _ _ hnd).mp hm
    have hd := getD_fieldFrequency traces f hwf
    rw [this] at hd
    simpa using hd
  have hmem_of_pos : fieldCount f traces ≠ 0 → (f, fieldCount f traces) ∈ fieldFrequency traces :=
    fun hpos => (mem_iff_getVal _ _ _ hnd).mpr (getVal_fieldFrequency_eq traces f hwf hpos)
  constructor
  · rw [extractInputContract, hfold.1]
    constructor
    · rintro (h | ⟨cnt, hm, hgt⟩)
      · simp at h
      · rwa [hcnt_of_mem cnt hm] at hgt
    · intro hgt
      have hpos : fieldCount f traces ≠ 0 := by
        intro h0
        rw [h0] at hgt
        norm_num at hgt
      exact Or.inr ⟨fieldCount f traces, hmem_of_pos hpos, hgt⟩
  · rw [extractInputContract, hfold.2]
    constructor
    · rintro (h | ⟨cnt, hm, hng, hgt⟩)
      · simp at h
      · rw [hcnt_of_mem cnt hm] at hng hgt
        exact ⟨hgt, not_lt.mp hng⟩
    · rintro ⟨hgt, hle⟩
      have hpos : fieldCount f traces ≠ 0 := by
        intro h0
        rw [h0] at hgt
        norm_num at hgt
      exact Or.inr ⟨fieldCount f traces, hmem_of_pos hpos, not_lt.mpr hle, hgt⟩

/-- `verifyWorkflow` is valid exactly when all six checks pass. -/
theorem verifyWorkflow_valid_eq (θ : ℚ) (w : Workflow) (tr : List Trace) :
    (verifyWorkflow θ w tr).valid =
      ((getVal w.states w.startAt).isSome && (getVal w.states "end").isSome &&
        checkReachability w && !detectCycles w &&
        decide (0 < w.inputContract.required.length) && decide (θ ≤ w.confidence)) := by
  simp only [verifyWorkflow, verifyChecks]
  generalize (getVal w.states w.startAt).isSome = b1
  generalize (getVal w.states "end").isSome = b2
  generalize checkReachability w = b3
  generalize detectCycles w = b4
  generalize decide (0 < w.inputContract.required.length) = b5
  generalize decide (θ ≤ w.confidence) = b6
  cases b1 <;> cases b2 <;> cases b3 <;> cases b4 <;> cases b5 <;> cases b6 <;> rfl

/-! ## Claim C6 -/

set_option maxRecDepth 8000 in
/-- C6 counterexample: a field present in exactly 9 of 10 first-task
inputs (share exactly 90%) is NOT marked required — the source test is
strict `> 0.9` — and lands in `optional` instead. -/
theorem claim6_counterexample :
    fieldCount "f" tracesNineOfTen = 9 ∧ tracesNineOfTen.length = 10 ∧
    "f" ∉ (extractInputContract patEmpty tracesNineOfTen).required ∧
    "f" ∈ (extractInputContract patEmpty tracesNineOfTen).optional := by
  with_unfolding_all decide

/-- C6 (amended): the compiled input contract marks a field required
exactly when it appears in strictly more than 90% of first-task inputs,
and optional exactly when its share is strictly above 30% and at most
90%. -/
theorem claim6_amended_contract_thresholds (p : Pattern) (traces : List Trace) (f : String)
    (hwf : ∀ tr ∈ traces, (firstTaskFields tr).Nodup) :
    (f ∈ (extractInputContract p traces).required ↔
      (fieldCount f traces : ℚ) / (traces.length : ℚ) > 9/10) ∧
    (f ∈ (extractInputContract p traces).optional ↔
      ((fieldCount f traces : ℚ) / (traces.length : ℚ) > 3/10 ∧
       (fieldCount f traces : ℚ) / (traces.length : ℚ) ≤ 9/10)) :=
  extractInputContract_mem_iff p traces f hwf

/-- Witness for the amended C6: the 9-of-10 field is optional, not
required, by the threshold characterisation. -/
theorem claim6_witness :
    "f" ∉ (extractInputContract patEmpty tracesNineOfTen).required ∧
    "f" ∈ (extractInputContract patEmpty tracesNineOfTen).optional := by
  have h := claim6_amended_contract_thresholds patEmpty tracesNineOfTen "f" (by decide)
  have hc : fieldCount "f" tracesNineOfTen = 9 := by decide
  have hl : tracesNineOfTen.length = 10 := by decide
  constructor
  · intro hmem
    have := h.1.mp hmem
    rw [hc, hl] at this
    norm_num at this
  · refine h.2.mpr ?_
    rw [hc, hl]
    constructor <;> norm_num

/-! ## Claim C9 -/

/-- C9: verification declares a workflow invalid whenever its input
contract has no required fields, regardless of the other checks; and a
workflow synthesized from traces in which no first-task field has a
share strictly above 90% is never deployed (`synthesizeWorkflow`
returns `null`). -/
theorem claim9_no_required_fields_rejected :
    (∀ (θ : ℚ) (w : Workflow) (tr : List Trace),
       w.inputContract.required = [] → (verifyWorkflow θ w tr).valid = false) ∧
    (∀ (θ : ℚ) (p : Pattern) (traces : List Trace),
       (∀ tr ∈ traces, (firstTaskFields tr).Nodup) →
       (∀ f ∈ allFirstTaskFields traces,
         ¬ ((fieldCount f traces : ℚ) / (traces.length : ℚ) > 9/10)) →
       synthesizeWorkflow θ p traces = none) := by
  have part1 : ∀ (θ : ℚ) (w : Workflow) (tr : List Trace),
      w.inputContract.required = [] → (verifyWorkflow θ w tr).valid = false := by
    intro θ w tr hreq
    rw [verifyWorkflow_valid_eq, hreq]
    simp
  refine ⟨part1, fun θ p traces hwf hf => ?_⟩
  have hreq : (extractInputContract p traces).required = [] := by
    rw [List.eq_nil_iff_forall_not_mem]
    intro f hmem
    have hgt := (extractInputContract_mem_iff p traces f hwf).1.mp hmem
    have hpos : fieldCount f traces ≠ 0 := by
      intro h0
      rw [h0] at hgt
      norm_num at hgt
    exact hf f (fieldCount_pos_mem traces f hpos) hgt
  have hvalid : (verifyWorkflow θ (buildWorkflow p traces) traces).valid = false :=
    part1 θ (buildWorkflow p traces) traces hreq
  simp [synthesizeWorkflow, hvalid]

/-- Witness for C9 at concrete inputs: two traces with disjoint single
fields (each share 50%) yield no synthesized workflow. -/
theorem claim9_witness :
    synthesizeWorkflow (3/4) patEmpty tracesNoMajority = none := by
  refine claim9_no_required_fields_rejected.2 (3/4) patEmpty tracesNoMajority
    (by decide) ?_
  intro f hfmem
  have hall : allFirstTaskFields tracesNoMajority = ["a", "b"] := by decide
  rw [hall, List.mem_cons, List.mem_singleton] at hfmem
  have hle : fieldCount f tracesNoMajority ≤ 1 := by
    rcases hfmem with rfl | rfl <;> decide
  have hlen : (tracesNoMajority.length : ℚ) = 2 := by
    norm_num [tracesNoMajority]
  intro hgt
  rw [hlen] at hgt
  have hq : (fieldCount f tracesNoMajority : ℚ) ≤ 1 := by
    exact_mod_cast hle
  have h2 : (fieldCount f tracesNoMajority : ℚ) / 2 ≤ 1/2 := by
    linarith
  linarith

/-! ## Claim C1 -/

/-- Replace a state's choice list, leaving everything else (in
particular its `goto` transitions) unchanged. -/
def withChoices (f : String → List WChoice) (k : String) (st : WState) : WState :=
  { st with choices := f k }

/-- Replace every state's choice list. -/
def setChoices (f : String → List WChoice) (w : Workflow) : Workflow :=
  { w with states := w.states.map (fun kv => (kv.1, withChoices f kv.1 kv.2)) }

theorem getVal_map_snd {α β : Type} (m : List (String × α)) (g : String → α → β) (k : String) :
    getVal (m.map (fun kv => (kv.1, g kv.1 kv.2))) k = (getVal m k).map (g k) := by
  induction m with
  | nil => simp [getVal]
  | cons p rest ih =>
      obtain ⟨k', v⟩ := p
      by_cases hk : k' = k
      · subst hk
        simp [getVal]
      · simp [getVal, hk, ih]

theorem gotoTargets_setChoices (states : Obj WState) (f : String → List WChoice)
    (node : String) :
    gotoTargets (states.map (fun kv => (kv.1, withChoices f kv.1 kv.2))) node =
      gotoTargets states node := by
  rw [gotoTargets, gotoTargets, getVal_map_snd]
  rcases getVal states node with _ | st <;> rfl

theorem hasCycleAux_setChoices (states : Obj WState) (f : String → List WChoice) :
    ∀ fuel : ℕ,
      (∀ (node : String) (visited recStack : List String),
        hasCycleAux (states.map (fun kv => (kv.1, withChoices f kv.1 kv.2)))
            fuel node visited recStack =
          hasCycleAux states fuel node visited recStack) ∧
      (∀ (l visited recStack : List String),
        hasCycleList (states.map (fun kv => (kv.1, withChoices f kv.1 kv.2)))
            fuel l visited recStack =
          hasCycleList states fuel l visited recStack) := by
  intro fuel
  induction fuel with
  | zero =>
      refine ⟨fun node visited recStack => by simp only [hasCycleAux], ?_⟩
      intro l
      induction l with
      | nil => intro visited recStack; simp only [hasCycleList]
      | cons n rest ihl =>
          intro visited recStack
          by_cases hend : n = "end"
          · simp only [hasCycleList, if_pos hend]
            exact ihl visited recStack
          · simp only [hasCycleList, if_neg hend, hasCycleAux]
            exact ihl visited recStack
  | succ fl ih =>
      have hA : ∀ (node : String) (visited recStack : List String),
          hasCycleAux (states.map (fun kv => (kv.1, withChoices f kv.1 kv.2)))
              (fl + 1) node visited recStack =
            hasCycleAux states (fl + 1) node visited recStack := by
        intro node visited recStack
        simp only [hasCycleAux]
        by_cases h1 : node ∈ recStack
        · rw [if_pos h1, if_pos h1]
        · rw [if_neg h1, if_neg h1]
          by_cases h2 : node ∈ visited
          · rw [if_pos h2, if_pos h2]
          · rw [if_neg h2, if_neg h2, gotoTargets_setChoices, ih.2]
      refine ⟨hA, ?_⟩
      intro l
      induction l with
      | nil => intro visited recStack; simp only [hasCycleList]
      | cons n rest ihl =>
          intro visited recStack
          by_cases hend : n = "end"
          · simp only [hasCycleList, if_pos hend]
            exact ihl visited recStack
          · simp only [hasCycleList, if_neg hend]
            rw [hA]
            rcases hasCycleAux states (fl + 1) n visited recStack with ⟨b, v2⟩
            cases b
            · exact ihl v2 recStack
            · rfl

theorem cycleFuel_setChoices (states : Obj WState) (f : String → List WChoice) :
    cycleFuel (states.map (fun kv => (kv.1, withChoices f kv.1 kv.2))) =
      cycleFuel states := by
  simp only [cycleFuel, List.length_map, List.map_map]
  rfl

/-- C1 (amended): the verifier's cycle detection inspects only `goto`
transitions from the start state (with `'end'` as excluded sentinel):
its verdict is unchanged under any replacement of the choice
transitions, so a back-edge that exists only among choice transitions
— in particular a branch whose every option transitions to an earlier
position — is never rejected as a cycle. -/
theorem claim1_amended_cycle_check_ignores_choices (w : Workflow)
    (f : String → List WChoice) :
    detectCycles (setChoices f w) = detectCycles w := by
  simp only [detectCycles, setChoices]
  rw [cycleFuel_setChoices,
    (hasCycleAux_setChoices w.states f (cycleFuel w.states)).1]

set_option maxRecDepth 8000 in
/-- C1 counterexample: a compiled workflow containing a back-edge among
its choice transitions (`choice_1 → TaskA` with `TaskA → choice_1` via
goto, neither the End sentinel) passes verification and is returned by
`synthesizeWorkflow` — verification does not reject it. -/
theorem claim1_counterexample :
    synthesizeWorkflow (3/4) patChoiceCycle trOne =
      some (buildWorkflow patChoiceCycle trOne) ∧
    cycEdge (buildWorkflow patChoiceCycle trOne) "TaskA" "choice_1" = true ∧
    cycEdge (buildWorkflow patChoiceCycle trOne) "choice_1" "TaskA" = true := by
  refine ⟨?_, ?_, ?_⟩ <;> with_unfolding_all decide

/-! ## Claim C4 -/

theorem getVal_some_mem {α : Type} {m : Obj α} {k : String} {v : α}
    (h : getVal m k = some v) : (k, v) ∈ m := by
  induction m with
  | nil => simp [getVal] at h
  | cons p rest ih =>
      obtain ⟨k', w⟩ := p
      by_cases hk : k' = k
      · subst hk
        rw [getVal, if_pos rfl] at h
        cases h
        exact List.mem_cons_self _ _
      · rw [getVal, if_neg hk] at h
        exact List.mem_cons_of_mem _ (ih h)

/-- BFS soundness: every name in the visited set is reachable from the
start along workflow transitions (the BFS follows `goto` and choice
edges, a sub-relation of the full transition relation). -/
theorem bfsAux_sound (w : Workflow) :
    ∀ (fuel : ℕ) (queue visited : List String),
      (∀ q ∈ queue, Reaches w w.startAt q) →
      (∀ v ∈ visited, Reaches w w.startAt v) →
      ∀ x ∈ bfsAux w.states fuel queue visited, Reaches w w.startAt x := by
  intro fuel
  induction fuel with
  | zero =>
      intro queue visited _ hv x hx
      simp only [bfsAux] at hx
      exact hv x hx
  | succ f ih =>
      intro queue visited hq hv x hx
      cases queue with
      | nil =>
          simp only [bfsAux] at hx
          exact hv x hx
      | cons current rest =>
          have hrest : ∀ q ∈ rest, Reaches w w.startAt q :=
            fun q hqm => hq q (List.mem_cons_of_mem _ hqm)
          have hcur : Reaches w w.startAt current := hq current (List.mem_cons_self _ _)
          by_cases hskip : current = "" ∨ current ∈ visited
          · rw [bfsAux, if_pos hskip] at hx
            exact ih rest visited hrest hv x hx
          · have hv2 : ∀ v ∈ current :: visited, Reaches w w.startAt v := by
              intro v hvm
              rcases List.mem_cons.mp hvm with rfl | hvm
              · exact hcur
              · exact hv v hvm
            rcases hst : getVal w.states current with _ | st
            · rw [bfsAux, if_neg hskip, hst] at hx
              exact ih rest (current :: visited) hrest hv2 x hx
            · rw [bfsAux, if_neg hskip, hst] at hx
              refine ih (rest ++ bfsTargets st) (current :: visited) ?_ hv2 x hx
              intro q hqm
              rcases List.mem_append.mp hqm with hqm | hqm
              · exact hrest q hqm
              · refine Relation.ReflTransGen.tail hcur ?_
                show q ∈ targetsOf w current
                rw [targetsOf, hst]
                exact List.mem_append_left _ hqm

/-- BFS never records a name twice. -/
theorem bfsAux_nodup (states : Obj WState) :
    ∀ (fuel : ℕ) (queue visited : List String), visited.Nodup →
      (bfsAux states fuel queue visited).Nodup := by
  intro fuel
  induction fuel with
  | zero =>
      intro queue visited hnd
      simpa only [bfsAux] using hnd
  | succ f ih =>
      intro queue visited hnd
      cases queue with
      | nil => simpa only [bfsAux] using hnd
      | cons current rest =>
          by_cases hskip : current = "" ∨ current ∈ visited
          · rw [bfsAux, if_pos hskip]
            exact ih rest visited hnd
          · have hnotmem : current ∉ visited := fun hc => hskip (Or.inr hc)
            have hnd2 : (current :: visited).Nodup := List.nodup_cons.mpr ⟨hnotmem, hnd⟩
            rcases hst : getVal states current with _ | st
            · rw [bfsAux, if_neg hskip, hst]
              exact ih rest _ hnd2
            · rw [bfsAux, if_neg hskip, hst]
              exact ih (rest ++ bfsTargets st) _ hnd2

/-- When every transition target is a declared state, the BFS visits
only declared states. -/
theorem bfsAux_subset (states : Obj WState)
    (hclosed : ∀ kv ∈ states, ∀ t ∈ bfsTargets kv.2, t ∈ objKeys states) :
    ∀ (fuel : ℕ) (queue visited : List String),
      (∀ q ∈ queue, q ∈ objKeys states) →
      (∀ v ∈ visited, v ∈ objKeys states) →
      ∀ x ∈ bfsAux states fuel queue visited, x ∈ objKeys states := by
  intro fuel
  induction fuel with
  | zero =>
      intro queue visited _ hv x hx
      simp only [bfsAux] at hx
      exact hv x hx
  | succ f ih =>
      intro queue visited hq hv x hx
      cases queue with
      | nil =>
          simp only [bfsAux] at hx
          exact hv x hx
      | cons current rest =>
          have hrest : ∀ q ∈ rest, q ∈ objKeys states :=
            fun q hqm => hq q (List.mem_cons_of_mem _ hqm)
          have hcur : current ∈ objKeys states := hq current (List.mem_cons_self _ _)
          have hv2 : ∀ v ∈ current :: visited, v ∈ objKeys states := by
            intro v hvm
            rcases List.mem_cons.mp hvm with rfl | hvm
            · exact hcur
            · exact hv v hvm
          by_cases hskip : current = "" ∨ current ∈ visited
          · rw [bfsAux, if_pos hskip] at hx
            exact ih rest visited hrest hv x hx
          · rcases hst : getVal states current with _ | st
            · rw [bfsAux, if_neg hskip, hst] at hx
              exact ih rest (current :: visited) hrest hv2 x hx
            · rw [bfsAux, if_neg hskip, hst] at hx
              refine ih (rest ++ bfsTargets st) (current :: visited) ?_ hv2 x hx
              intro q hqm
              rcases List.mem_append.mp hqm with hqm | hqm
              · exact hrest q hqm
              · exact hclosed (current, st) (getVal_some_mem hst) q hqm

/-- C4 (amended): for a workflow whose BFS transition targets (goto and
choice edges) all resolve to declared states, the existence of a
declared state unreachable from the start along workflow transitions
makes verification fail.  (Without that proviso the check can be fooled:
the BFS counts undeclared dangling targets toward the declared-state
total, see the counterexample.) -/
theorem claim4_amended_unreachable_rejected (θ : ℚ) (w : Workflow) (tr : List Trace)
    (s : String)
    (hnd : (objKeys w.states).Nodup)
    (hclosed : ∀ kv ∈ w.states, ∀ t ∈ bfsTargets kv.2, t ∈ objKeys w.states)
    (hs : s ∈ objKeys w.states)
    (hunreach : ¬ Reaches w w.startAt s) :
    (verifyWorkflow θ w tr).valid = false := by
  rw [verifyWorkflow_valid_eq]
  by_cases hstart : (getVal w.states w.startAt).isSome
  · suffices hcr : checkReachability w = false by
      rw [hcr]
      simp
    obtain ⟨st0, hst0⟩ := Option.isSome_iff_exists.mp hstart
    have hstartmem : w.startAt ∈ objKeys w.states := mem_objKeys_of_getVal_some hst0
    have hsound := bfsAux_sound w (bfsFuel w.states) [w.startAt] []
      (by intro q hqm
          rw [List.mem_singleton] at hqm
          subst hqm
          exact Relation.ReflTransGen.refl)
      (by intro v hvm; simp at hvm)
    have hvnodup := bfsAux_nodup w.states (bfsFuel w.states) [w.startAt] [] (by simp)
    have hvsub := bfsAux_subset w.states hclosed (bfsFuel w.states) [w.startAt] []
      (by intro q hqm
          rw [List.mem_singleton] at hqm
          subst hqm
          exact hstartmem)
      (by intro v hvm; simp at hvm)
    set visited := bfsAux w.states (bfsFuel w.states) [w.startAt] [] with hvis
    have hsnot : s ∉ visited := fun hc => hunreach (hsound s hc)
    have hlt : visited.length < (objKeys w.states).length := by
      have h1 : visited.length = visited.toFinset.card :=
        (List.toFinset_card_of_nodup hvnodup).symm
      have h2 : (objKeys w.states).length = (objKeys w.states).toFinset.card :=
        (List.toFinset_card_of_nodup hnd).symm
      rw [h1, h2]
      refine Finset.card_lt_card ?_
      rw [Finset.ssubset_iff_of_subset]
      · exact ⟨s, List.mem_toFinset.mpr hs, fun hc => hsnot (List.mem_toFinset.mp hc)⟩
      · intro x hx
        exact List.mem_toFinset.mpr (hvsub x (List.mem_toFinset.mp hx))
    rw [checkReachability]
    rw [decide_eq_false_iff_not]
    exact Nat.ne_of_lt hlt
  · have : (getVal w.states w.startAt).isSome = false :=
      Bool.not_eq_true _ ▸ (by simpa using hstart)
    rw [this]
    simp

/-- A hand-written workflow with an orphan declared state and no
dangling transition targets. -/
def wOrphan : Workflow :=
  { startAt := "input_validation"
    states :=
      [("input_validation", { type := "validation", validateContract := true, goto := ["end"] }),
       ("orphan", { type := "task", goto := ["end"] }),
       ("end", { type := "end" })]
    inputContract := { required := ["q"] }
    confidence := 1 }

/-- Witness for the amended C4: the orphan-state workflow is rejected. -/
theorem claim4_witness : (verifyWorkflow (3/4) wOrphan []).valid = false := by
  refine claim4_amended_unreachable_rejected (3/4) wOrphan [] "orphan"
    (by decide) (by decide) (by decide) ?_
  intro h
  have hclosure : ∀ b ∈ (["input_validation", "end"] : List String),
      ∀ c ∈ targetsOf wOrphan b, c ∈ (["input_validation", "end"] : List String) := by
    decide
  have hmem : ∀ x, Reaches wOrphan "input_validation" x →
      x ∈ (["input_validation", "end"] : List String) := by
    intro x hx
    induction hx with
    | refl => exact List.mem_cons_self _ _
    | tail _ hstep ih => exact hclosure _ ih _ hstep
  have := hmem _ h
  simp at this

set_option maxRecDepth 8000 in
/-- C4 counterexample: a compiled workflow whose declared state
`choice_2` is unreachable from the start (nothing references it, not
even a choice default), yet verification accepts the workflow: the BFS
counted two dangling option names (`X` and the literal `BRANCH`) — of
which `X` is visited — so the visited count still equals the
declared-state count. -/
theorem claim4_counterexample :
    synthesizeWorkflow (3/4) patOrphanChoice trOne =
      some (buildWorkflow patOrphanChoice trOne) ∧
    "choice_2" ∈ objKeys (buildWorkflow patOrphanChoice trOne).states ∧
    ¬ Reaches (buildWorkflow patOrphanChoice trOne) "input_validation" "choice_2" := by
  refine ⟨by with_unfolding_all decide, by with_unfolding_all decide, ?_⟩
  intro h
  have hclosure : ∀ b ∈ (["input_validation", "A", "choice_1", "C", "X", "BRANCH",
      "end"] : List String),
      ∀ c ∈ targetsOf (buildWorkflow patOrphanChoice trOne) b,
        c ∈ (["input_validation", "A", "choice_1", "C", "X", "BRANCH", "end"] : List String) := by
    with_unfolding_all decide
  have hmem : ∀ x, Reaches (buildWorkflow patOrphanChoice trOne) "input_validation" x →
      x ∈ (["input_validation", "A", "choice_1", "C", "X", "BRANCH", "end"] : List String) := by
    intro x hx
    induction hx with
    | refl => exact List.mem_cons_self _ _
    | tail _ hstep ih => exact hclosure _ ih _ hstep
  have := hmem _ h
  simp at this

/-! ## Claim C10 -/

theorem choiceKey_ne_iv (n : ℕ) : ("choice_" ++ toString n) ≠ "input_validation" := by
  intro h
  have hd := congrArg String.data h
  rw [String.data_append] at hd
  have h1 : "choice_".data = ['c', 'h', 'o', 'i', 'c', 'e', '_'] := rfl
  rw [h1] at hd
  simp at hd

theorem choiceKey_ne_branch (n : ℕ) : ("choice_" ++ toString n) ≠ "BRANCH" := by
  intro h
  have hd := congrArg String.data h
  rw [String.data_append] at hd
  have h1 : "choice_".data = ['c', 'h', 'o', 'i', 'c', 'e', '_'] := rfl
  rw [h1] at hd
  simp at hd

/-- The key generated for a consensus node: a `choice_i` key, or the
task's own name — which is then not `BRANCH`. -/
theorem nodeStateEntry_key (p : Pattern) (index : ℕ) (node : CNode)
    (next : Option CNode) :
    (nodeStateEntry p index node next).1 = "choice_" ++ toString index ∨
    ((nodeStateEntry p index node next).1 = node.taskName ∧ node.taskName ≠ "BRANCH") := by
  by_cases h : node.taskName = "BRANCH"
  · simp [nodeStateEntry, if_pos h]
  · simp [nodeStateEntry, if_neg h, h]

theorem getVal_genFold_of_ne (p : Pattern) (l : List (ℕ × CNode)) (init : Obj WState)
    (k : String)
    (h : ∀ en ∈ l, (nodeStateEntry p en.1 en.2 (p.consensusSequence.get? (en.1 + 1))).1 ≠ k) :
    getVal (l.foldl (genStep p) init) k = getVal init k := by
  induction l generalizing init with
  | nil => rfl
  | cons e rest ih =>
      rw [List.foldl_cons, ih _ (fun en hen => h en (List.mem_cons_of_mem _ hen))]
      exact getVal_setVal_ne _ _ _ _ (fun hc => h e (List.mem_cons_self _ _) hc.symm)

theorem mem_objKeys_setVal_of_mem {α : Type} (m : Obj α) (k k' : String) (v : α)
    (h : k ∈ objKeys m) : k ∈ objKeys (setVal m k' v) := by
  rw [objKeys_setVal]
  by_cases hm : k' ∈ objKeys m
  · rwa [if_pos hm]
  · rw [if_neg hm]
    exact List.mem_append_left _ h

theorem mem_objKeys_setVal_self {α : Type} (m : Obj α) (k : String) (v : α) :
    k ∈ objKeys (setVal m k v) := by
  rw [objKeys_setVal]
  by_cases hm : k ∈ objKeys m
  · rwa [if_pos hm]
  · rw [if_neg hm]
    exact List.mem_append_right _ (List.mem_singleton.mpr rfl)

theorem mem_objKeys_genFold (p : Pattern) (l : List (ℕ × CNode)) (init : Obj WState)
    (k : String) (h : k ∈ objKeys init) : k ∈ objKeys (l.foldl (genStep p) init) := by
  induction l generalizing init with
  | nil => exact h
  | cons e rest ih =>
      rw [List.foldl_cons]
      exact ih _ (mem_objKeys_setVal_of_mem _ _ _ _ h)

theorem objKeys_genFold_nodup (p : Pattern) (l : List (ℕ × CNode)) (init : Obj WState)
    (h : (objKeys init).Nodup) : (objKeys (l.foldl (genStep p) init)).Nodup := by
  induction l generalizing init with
  | nil => exact h
  | cons e rest ih =>
      rw [List.foldl_cons]
      exact ih _ (objKeys_setVal_nodup _ _ _ h)

/-- One BFS iteration on a dequeued declared state. -/
theorem bfsAux_step_some (states : Obj WState) (fuel : ℕ) (current : String)
    (queue visited : List String) (st : WState)
    (hskip : ¬ (current = "" ∨ current ∈ visited))
    (hst : getVal states current = some st) :
    bfsAux states (fuel + 1) (current :: queue) visited =
      bfsAux states fuel (queue ++ bfsTargets st) (current :: visited) := by
  simp only [bfsAux, if_neg hskip, hst]

/-- One BFS iteration on a dequeued undeclared name. -/
theorem bfsAux_step_none (states : Obj WState) (fuel : ℕ) (current : String)
    (queue visited : List String)
    (hskip : ¬ (current = "" ∨ current ∈ visited))
    (hst : getVal states current = none) :
    bfsAux states (fuel + 1) (current :: queue) visited =
      bfsAux states fuel queue (current :: visited) := by
  simp only [bfsAux, if_neg hskip, hst]

theorem bfsAux_nil (states : Obj WState) (fuel : ℕ) (visited : List String) :
    bfsAux states fuel [] visited = visited := by
  cases fuel <;> rfl

theorem three_le_length_of_mem {l : List String} (hnd : l.Nodup) (a b c : String)
    (ha : a ∈ l) (hb : b ∈ l) (hc : c ∈ l) (hab : a ≠ b) (hac : a ≠ c) (hbc : b ≠ c) :
    3 ≤ l.length := by
  have hsub : ({a, b, c} : Finset String) ⊆ l.toFinset := by
    intro x hx
    rw [List.mem_toFinset]
    rcases Finset.mem_insert.mp hx with rfl | hx
    · exact ha
    · rcases Finset.mem_insert.mp hx with rfl | hx
      · exact hb
      · rw [Finset.mem_singleton] at hx
        subst hx
        exact hc
  have hcard : ({a, b, c} : Finset String).card = 3 :=
    Finset.card_eq_three.mpr ⟨a, b, c, hab, hac, hbc, rfl⟩
  calc 3 = ({a, b, c} : Finset String).card := hcard.symm
    _ ≤ l.toFinset.card := Finset.card_le_card hsub
    _ = l.length := List.toFinset_card_of_nodup hnd

/-- C10 (amended): a consensus pattern whose first node is a Branch
node yields no workflow, provided no consensus task is literally named
`input_validation`: the validation state's goto is the literal name
`BRANCH`, which is never a declared state, so the BFS visits exactly
two names while at least three states are declared, and the
reachability check fails.  (If a task is named `input_validation` it
overwrites the validation state and the argument — and the claim —
breaks, see the counterexample.) -/
theorem claim10_amended_branch_first_rejected (θ : ℚ) (p : Pattern)
    (traces : List Trace) (node : CNode)
    (hhead : p.consensusSequence.head? = some node)
    (hbr : node.taskName = "BRANCH")
    (hniv : ∀ nd ∈ p.consensusSequence, nd.taskName ≠ "input_validation") :
    synthesizeWorkflow θ p traces = none := by
  obtain ⟨rest, hseq⟩ : ∃ rest, p.consensusSequence = node :: rest := by
    rcases hs : p.consensusSequence with _ | ⟨n0, rest⟩
    · rw [hs] at hhead
      simp at hhead
    · rw [hs] at hhead
      rw [List.head?_cons] at hhead
      cases hhead
      exact ⟨rest, rfl⟩
  have hmem_enum : ∀ en : ℕ × CNode, en ∈ p.consensusSequence.enum →
      en.2 ∈ p.consensusSequence := by
    rintro ⟨i, x⟩ hen
    rw [List.mk_mem_enum_iff_getElem?] at hen
    exact List.getElem?_mem hen
  -- the generated validation state
  have hvalgoto : ((p.consensusSequence.head?).map CNode.taskName).getD "end" = "BRANCH" := by
    rw [hhead]
    simp [hbr]
  have hA : getVal (generateStates p) "input_validation" =
      some { type := "validation", validateContract := true, goto := ["BRANCH"] } := by
    rw [generateStates]
    rw [getVal_setVal_ne _ _ _ _ (by decide)]
    rw [getVal_genFold_of_ne]
    · rw [getVal, if_pos rfl, hvalgoto]
    · intro en hen
      rcases nodeStateEntry_key p en.1 en.2 (p.consensusSequence.get? (en.1 + 1)) with hk | ⟨hk, _⟩
      · rw [hk]
        exact choiceKey_ne_iv en.1
      · rw [hk]
        exact hniv en.2 (hmem_enum en hen)
  have hB : getVal (generateStates p) "BRANCH" = none := by
    rw [generateStates]
    rw [getVal_setVal_ne _ _ _ _ (by decide)]
    rw [getVal_genFold_of_ne]
    · rw [getVal, if_neg (by decide)]
      rfl
    · intro en hen
      rcases nodeStateEntry_key p en.1 en.2 (p.consensusSequence.get? (en.1 + 1)) with hk | ⟨hk, hnb⟩
      · rw [hk]
        exact choiceKey_ne_branch en.1
      · rw [hk]
        exact hnb
  -- three distinct declared states
  have hiv_mem : "input_validation" ∈ objKeys (generateStates p) :=
    mem_objKeys_of_getVal_some hA
  have hend_mem : "end" ∈ objKeys (generateStates p) := by
    rw [generateStates]
    exact mem_objKeys_setVal_self _ _ _
  have hchoice0_mem : "choice_0" ∈ objKeys (generateStates p) := by
    rw [generateStates]
    refine mem_objKeys_setVal_of_mem _ _ _ _ ?_
    rw [hseq, List.enum_cons, List.foldl_cons]
    refine mem_objKeys_genFold _ _ _ _ ?_
    have hkey : (nodeStateEntry p 0 node ((node :: rest).get? 1)).1 = "choice_0" := by
      simp only [nodeStateEntry, if_pos hbr]
      rfl
    rw [genStep, hseq]
    rw [hkey]
    exact mem_objKeys_setVal_self _ _ _
  have hnodup : (objKeys (generateStates p)).Nodup := by
    rw [generateStates]
    refine objKeys_setVal_nodup _ _ _ ?_
    exact objKeys_genFold_nodup _ _ _ (by simp)
  have hkeys3 : 3 ≤ (objKeys (generateStates p)).length :=
    three_le_length_of_mem hnodup "input_validation" "choice_0" "end"
      hiv_mem hchoice0_mem hend_mem (by decide) (by decide) (by decide)
  -- the BFS visits exactly two names
  have hlen_eq : (generateStates p).length = (objKeys (generateStates p)).length := by
    rw [objKeys, List.length_map]
  have hfuel2 : ∃ k, bfsFuel (generateStates p) = k + 2 := by
    refine ⟨bfsFuel (generateStates p) - 2, ?_⟩
    have : 3 ≤ (generateStates p).length := by omega
    rw [bfsFuel]
    omega
  obtain ⟨k, hk⟩ := hfuel2
  have hrun : bfsAux (generateStates p) (bfsFuel (generateStates p))
      ["input_validation"] [] = ["BRANCH", "input_validation"] := by
    rw [hk]
    rw [show k + 2 = (k + 1) + 1 from rfl]
    rw [bfsAux_step_some _ (k + 1) _ _ _ _ (by simp) hA]
    rw [show ([] : List String) ++
        bfsTargets { type := "validation", validateContract := true, goto := ["BRANCH"] } =
        ["BRANCH"] from rfl]
    rw [show k + 1 = k + 1 from rfl]
    rw [bfsAux_step_none _ k _ _ _ (by simp) hB]
    exact bfsAux_nil _ _ _
  -- reachability check fails, so verification fails
  have hcheck : checkReachability (buildWorkflow p traces) = false := by
    rw [checkReachability]
    rw [decide_eq_false_iff_not]
    show ¬ (bfsAux (buildWorkflow p traces).states
      (bfsFuel (buildWorkflow p traces).states) [(buildWorkflow p traces).startAt] []).length =
      (objKeys (buildWorkflow p traces).states).length
    have hstates : (buildWorkflow p traces).states = generateStates p := rfl
    have hstart : (buildWorkflow p traces).startAt = "input_validation" := rfl
    rw [hstates, hstart, hrun]
    intro hcontra
    rw [List.length_cons, List.length_singleton] at hcontra
    omega
  have hvalid : (verifyWorkflow θ (buildWorkflow p traces) traces).valid = false := by
    rw [verifyWorkflow_valid_eq, hcheck]
    simp
  simp [synthesizeWorkflow, hvalid]

set_option maxRecDepth 8000 in
/-- Witness for the amended C10: a branch-first pattern with an
ordinary task name yields no workflow. -/
theorem claim10_witness :
    synthesizeWorkflow (3/4) patBranchFirst trOne = none := by
  refine claim10_amended_branch_first_rejected (3/4) patBranchFirst trOne (branchNode 0)
    (by with_unfolding_all decide) rfl ?_
  with_unfolding_all decide

set_option maxRecDepth 8000 in
/-- C10 counterexample: a consensus pattern whose first node is a
Branch node but whose later tasks are named `input_validation` (which
overwrites the validation state) and `choice_0` produces a workflow
that passes verification — `synthesizeWorkflow` does not return null. -/
theorem claim10_counterexample :
    (patBranchFirstOverwrite.consensusSequence.head?.map CNode.taskName) = some "BRANCH" ∧
    synthesizeWorkflow (3/4) patBranchFirstOverwrite trOne =
      some (buildWorkflow patBranchFirstOverwrite trOne) := by
  refine ⟨?_, ?_⟩ <;> with_unfolding_all decide

/-! ## Claim C3 -/

theorem min3_ne_top_left {a b c : WithTop ℚ} (ha : a ≠ ⊤) : min (min a b) c ≠ ⊤ := by
  intro h
  apply ha
  have h1 : (⊤ : WithTop ℚ) ≤ a := by
    rw [← h]
    exact le_trans (min_le_left _ _) (min_le_left _ _)
  exact top_le_iff.mp h1

theorem min3_ne_top_mid {a b c : WithTop ℚ} (hb : b ≠ ⊤) : min (min a b) c ≠ ⊤ := by
  intro h
  apply hb
  have h1 : (⊤ : WithTop ℚ) ≤ b := by
    rw [← h]
    exact le_trans (min_le_left _ _) (min_le_right _ _)
  exact top_le_iff.mp h1

theorem min3_ne_top_right {a b c : WithTop ℚ} (hc : c ≠ ⊤) : min (min a b) c ≠ ⊤ := by
  intro h
  apply hc
  have h1 : (⊤ : WithTop ℚ) ≤ c := by
    rw [← h]
    exact min_le_right _ _
  exact top_le_iff.mp h1

theorem add_one_ne_top {a : WithTop ℚ} (ha : a ≠ ⊤) : a + 1 ≠ ⊤ :=
  WithTop.add_ne_top.mpr ⟨ha, WithTop.one_ne_top⟩

/-- `dtw[1][1]` is the similarity cost of the first tasks. -/
theorem dtw_one_one (s1 s2 : List JTask) :
    dtw s1 s2 (0 + 1) (0 + 1) =
      ((taskSimilarity (s1.getD 0 undefinedTask) (s2.getD 0 undefinedTask) : ℚ) :
        WithTop ℚ) := by
  rw [dtw]
  simp [dtw, WithTop.top_add, min_eq_right (le_top : _ ≤ (⊤ : WithTop ℚ))]

/-- Every interior DTW entry is finite. -/
theorem dtw_ne_top (s1 s2 : List JTask) :
    ∀ (n i j : ℕ), i + j ≤ n → dtw s1 s2 (i + 1) (j + 1) ≠ ⊤ := by
  intro n
  induction n with
  | zero =>
      intro i j hij
      obtain ⟨rfl, rfl⟩ : i = 0 ∧ j = 0 := by omega
      rw [dtw_one_one]
      exact WithTop.coe_ne_top
  | succ n ih =>
      intro i j hij
      rcases i with _ | i
      · rcases j with _ | j
        · rw [dtw_one_one]
          exact WithTop.coe_ne_top
        · rw [dtw]
          exact min3_ne_top_mid (add_one_ne_top (ih 0 j (by omega)))
      · rcases j with _ | j
        · rw [dtw]
          exact min3_ne_top_left (add_one_ne_top (ih i 0 (by omega)))
        · rw [dtw]
          exact min3_ne_top_right (WithTop.add_ne_top.mpr
            ⟨ih i j (by omega), WithTop.coe_ne_top⟩)

/-- Column-one recurrence: with the border at `Infinity`, each entry of
column 1 below the first is one more than the entry above it. -/
theorem dtw_col_one (s1 s2 : List JTask) (i : ℕ) :
    dtw s1 s2 (i + 1 + 1) (0 + 1) = dtw s1 s2 (i + 1) (0 + 1) + 1 := by
  conv_lhs => rw [dtw]
  have h1 : dtw s1 s2 (i + 1 + 1) 0 = ⊤ := by rw [dtw]
  have h2 : dtw s1 s2 (i + 1) 0 = ⊤ := by rw [dtw]
  rw [h1, h2]
  simp [WithTop.top_add, min_eq_left (le_top : _ ≤ (⊤ : WithTop ℚ))]

/-- The backtracked alignment is at least as long as either input
prefix, on every state the loop can actually reach (`i = 0` or
`j ≥ 1`; the JS loop diverges on the unreachable states `i ≥ 1, j = 0`
with the deletion test false). -/
theorem backtrack_length_ge (s1 s2 : List JTask) :
    ∀ (n i j : ℕ), i + j ≤ n → (i = 0 ∨ 1 ≤ j) →
      max i j ≤ (backtrack s1 s2 i j).length := by
  intro n
  induction n with
  | zero =>
      intro i j hsum _
      obtain ⟨rfl, rfl⟩ : i = 0 ∧ j = 0 := by omega
      rw [backtrack, dif_pos ⟨rfl, rfl⟩]
      simp
  | succ n ih =>
      intro i j hsum hok
      rcases i with _ | i
      · rcases j with _ | j
        · rw [backtrack, dif_pos ⟨rfl, rfl⟩]
          simp
        · rw [backtrack]
          rw [dif_neg (by omega)]
          rw [dif_neg (fun hc => by omega)]
          rw [dif_neg (fun hc => by omega)]
          rw [dif_pos (by omega)]
          rw [List.length_append, List.length_singleton]
          have hih := ih 0 j (by omega) (Or.inl rfl)
          simp only [Nat.add_sub_cancel] at *
          omega
      · rcases j with _ | j
        · rcases hok with hok | hok <;> omega
        · rw [backtrack]
          rw [dif_neg (by omega)]
          split
          case isTrue hdiag =>
            rw [List.length_append, List.length_singleton]
            have hfin : dtw s1 s2 (i + 1) (j + 1) ≠ ⊤ :=
              dtw_ne_top s1 s2 (i + j) i j le_rfl
            have hok2 : i = 0 ∨ 1 ≤ j := by
              rcases Nat.eq_zero_or_pos i with hi | hi
              · exact Or.inl hi
              · rcases Nat.eq_zero_or_pos j with hj | hj
                · exfalso
                  subst hj
                  obtain ⟨i2, rfl⟩ : ∃ i2, i = i2 + 1 := ⟨i - 1, by omega⟩
                  have hd := hdiag.2.2
                  simp only [Nat.add_sub_cancel] at hd
                  have htop : dtw s1 s2 (i2 + 1) 0 = ⊤ := by rw [dtw]
                  rw [htop, WithTop.top_add] at hd
                  exact hfin hd
                · exact Or.inr hj
            have hih := ih i j (by omega) hok2
            simp only [Nat.add_sub_cancel] at *
            omega
          case isFalse hdiag =>
            split
            case isTrue hdel =>
              rw [List.length_append, List.length_singleton]
              have hih := ih i (j + 1) (by omega) (Or.inr (by omega))
              simp only [Nat.add_sub_cancel] at *
              omega
            case isFalse hdel =>
              rw [dif_pos (by omega)]
              rw [List.length_append, List.length_singleton]
              have hj1 : 1 ≤ j := by
                by_contra hj0
                have hj0' : j = 0 := by omega
                subst hj0'
                rcases Nat.eq_zero_or_pos i with hi | hi
                · subst hi
                  refine hdiag ⟨le_rfl, le_rfl, ?_⟩
                  simp only [Nat.add_sub_cancel]
                  rw [dtw_one_one]
                  have h00 : dtw s1 s2 0 0 = 0 := by rw [dtw]
                  rw [h00, zero_add]
                · obtain ⟨i2, rfl⟩ : ∃ i2, i = i2 + 1 := ⟨i - 1, by omega⟩
                  refine hdel ⟨by omega, ?_⟩
                  simp only [Nat.add_sub_cancel]
                  exact dtw_col_one s1 s2 i2
              have hih := ih (i + 1) j (by omega) (Or.inr hj1)
              simp only [Nat.add_sub_cancel] at *
              omega

/-- The aligned sequence produced for `seq2` against reference `seq1`
has length at least `seq1.length` (and at least `seq2.length`). -/
theorem alignTwoSequences_length_ge (s1 s2 : List JTask) (h2 : 1 ≤ s2.length) :
    s1.length ≤ (alignTwoSequences s1 s2).aligned.length := by
  have hb := backtrack_length_ge s1 s2 (s1.length + s2.length) s1.length s2.length
    le_rfl (Or.inr h2)
  calc s1.length ≤ max s1.length s2.length := le_max_left _ _
    _ ≤ (backtrack s1 s2 s1.length s2.length).length := hb
    _ = (alignTwoSequences s1 s2).aligned.length := rfl

/-- C3 (amended): after alignment every member of the aligned set has
length at least the reference length `L = |sequences[0]|`; the members
do NOT in general share one common length — an aligned sequence is
strictly longer than the reference whenever backtracking takes an
insertion step (see the counterexample). -/
theorem claim3_amended_aligned_length_ge (traces : List Trace)
    (hne : ∀ tr ∈ traces, tr.executionSequence ≠ []) :
    ∀ a ∈ (alignExecutionSequences traces).aligned,
      (alignExecutionSequences traces).reference.length ≤ a.length := by
  intro a ha
  simp only [alignExecutionSequences] at ha ⊢
  rcases List.mem_cons.mp ha with rfl | ha
  · exact le_rfl
  · rw [List.mem_map] at ha
    obtain ⟨pa, hpa, rfl⟩ := ha
    rw [List.mem_map] at hpa
    obtain ⟨s, hs, rfl⟩ := hpa
    have hs2 : s ∈ traces.map Trace.executionSequence := List.mem_of_mem_tail hs
    rw [List.mem_map] at hs2
    obtain ⟨tr, htr, rfl⟩ := hs2
    have hlen : 1 ≤ tr.executionSequence.length :=
      List.length_pos.mpr (hne tr htr)
    exact alignTwoSequences_length_ge _ _ hlen

set_option maxRecDepth 40000 in
/-- Witness for the amended C3 at concrete traces: the second aligned
member is at least as long as the reference. -/
theorem claim3_witness :
    (alignExecutionSequences tracesIns).reference.length ≤
      ((alignExecutionSequences tracesIns).aligned.getD 1 []).length := by
  refine claim3_amended_aligned_length_ge tracesIns ?_ _ ?_
  · with_unfolding_all decide
  · with_unfolding_all decide

set_option maxRecDepth 40000 in
/-- C3 counterexample: two traces (one a one-task extension of the
other) align to member lengths 4 and 5 — no common length — while the
alignment score 0.8 exceeds the 0.7 threshold, so mining proceeds with
this aligned set. -/
theorem claim3_counterexample :
    ((alignExecutionSequences tracesIns).aligned.map List.length) = [4, 5] ∧
    (alignExecutionSequences tracesIns).alignmentScore = 4/5 ∧
    ((7 : ℚ)/10 ≤ (alignExecutionSequences tracesIns).alignmentScore) := by
  refine ⟨?_, ?_, ?_⟩ <;> with_unfolding_all decide

end DFHA
